import Mathlib

/-
  Verification of core storage-engine primitives of an MVCC table/index layer:
  the file-backed buffer cache (src/utils/o_buffers.c), the fast-path intra-page
  descent (src/btree/fastpath.c), the bottom-up bulk B-tree builder
  (src/btree/build.c), the tuplesort adapter (src/tuple/sort.c) and the tuple
  format accessors (include/tuple/format.h), shallowly embedded in Lean 4.

  Machine integers of the C source are modelled as Nat/Int (the verified
  routines never rely on wraparound on the paths considered); pointers into
  page images are modelled as indices into abstract memory functions; the
  in-out parameters of the C routines become explicit state passing.
-/

set_option maxHeartbeats 1000000

namespace Fastpath

/--
Lower-bound binary-search loop shared by the six `*_array_search` routines of
`src/btree/fastpath.c` (`while (low < high) { mid = low + (high - low) / 2;
if (value < key) low = mid + 1; else high = mid; }`).  `ltb` is the per-type
boolean comparison performed on the probed element and the key
(`value < key` resp. `tid_cmp(value, key) < 0`).  The C `while` loop is
rendered with an explicit fuel argument (any fuel `≥ high - low` yields the
loop's fixpoint, see `searchLowerLoop_spec`), keeping the definition
structurally recursive and executable.
-/
def searchLowerLoop (ltb : α → α → Bool) (arr : Nat → α) (key : α) :
    Nat → Nat → Nat → Nat
  | 0, low, _ => low
  | fuel + 1, low, high =>
    if low < high then
      let mid := low + (high - low) / 2
      if ltb (arr mid) key then searchLowerLoop ltb arr key fuel (mid + 1) high
      else searchLowerLoop ltb arr key fuel low mid
    else low

/--
Upper-bound binary-search loop shared by the six `*_array_search` routines of
`src/btree/fastpath.c` (second `while` loop; `leb` is the per-type
`value <= key` resp. `tid_cmp(value, key) <= 0` test).
-/
def searchUpperLoop (leb : α → α → Bool) (arr : Nat → α) (key : α) :
    Nat → Nat → Nat → Nat
  | 0, low, _ => low
  | fuel + 1, low, high =>
    if low < high then
      let mid := low + (high - low) / 2
      if leb (arr mid) key then searchUpperLoop leb arr key fuel (mid + 1) high
      else searchUpperLoop leb arr key fuel low mid
    else low

/--
Common body of the `*_array_search` routines of `src/btree/fastpath.c`: the
in-out `*lower`/`*upper` pair becomes a returned pair.  The lower search runs
on the initial `[*lower, *upper)` window; the upper search then restarts with
`low` at the computed lower bound and `high = *upper` as in the C code.
The stride-`S` pointer walk `*(T *)(base + mid * stride)` is abstracted into
the index function `arr`.
-/
def arraySearch (ltb leb : α → α → Bool) (arr : Nat → α) (key : α)
    (lower upper : Nat) : Nat × Nat :=
  (searchLowerLoop ltb arr key (upper - lower) lower upper,
   searchUpperLoop leb arr key
     (upper - searchLowerLoop ltb arr key (upper - lower) lower upper)
     (searchLowerLoop ltb arr key (upper - lower) lower upper) upper)

/-- `oid_array_search` of `src/btree/fastpath.c`; `Oid` (`uint32`) values are
modelled as `Nat` with the unsigned comparison. -/
def oid_array_search (arr : Nat → Nat) (key : Nat) (lower upper : Nat) :
    Nat × Nat :=
  arraySearch (fun v k => decide (v < k)) (fun v k => decide (v ≤ k))
    arr key lower upper

/-- `int4_array_search` of `src/btree/fastpath.c`; `int32` values are modelled
as `Int` with the signed comparison. -/
def int4_array_search (arr : Nat → Int) (key : Int) (lower upper : Nat) :
    Nat × Nat :=
  arraySearch (fun v k => decide (v < k)) (fun v k => decide (v ≤ k))
    arr key lower upper

/-- `int8_array_search` of `src/btree/fastpath.c`; `int64` values are modelled
as `Int` with the signed comparison. -/
def int8_array_search (arr : Nat → Int) (key : Int) (lower upper : Nat) :
    Nat × Nat :=
  arraySearch (fun v k => decide (v < k)) (fun v k => decide (v ≤ k))
    arr key lower upper

/-- `float4_array_search` of `src/btree/fastpath.c`.  The C routine compares
`float4` values with the machine `<`/`<=`; on NaN-free data this comparison
is the order of the represented real numbers, which we model by `ℚ`
(NaN payloads, on which the machine comparison is not an order, are outside
this model). -/
def float4_array_search (arr : Nat → ℚ) (key : ℚ) (lower upper : Nat) :
    Nat × Nat :=
  arraySearch (fun v k => decide (v < k)) (fun v k => decide (v ≤ k))
    arr key lower upper

/-- `float8_array_search` of `src/btree/fastpath.c`; same modelling convention
as `float4_array_search`. -/
def float8_array_search (arr : Nat → ℚ) (key : ℚ) (lower upper : Nat) :
    Nat × Nat :=
  arraySearch (fun v k => decide (v < k)) (fun v k => decide (v ≤ k))
    arr key lower upper

/-- `ItemPointerData` as read by `tid_cmp`: a block number (`uint32`) and an
offset number (`uint16`). -/
structure ItemPointerData where
  block : Nat
  offset : Nat
deriving DecidableEq

/-- `tid_cmp` of `src/btree/fastpath.c`: compare block numbers first, then
offset numbers. -/
def tid_cmp (a1 a2 : ItemPointerData) : Int :=
  if a1.block < a2.block then -1
  else if a1.block > a2.block then 1
  else if a1.offset < a2.offset then -1
  else if a1.offset > a2.offset then 1
  else 0

/-- `tid_array_search` of `src/btree/fastpath.c`: binary searches driven by
`tid_cmp ... < 0` and `tid_cmp ... <= 0`. -/
def tid_array_search (arr : Nat → ItemPointerData) (key : ItemPointerData)
    (lower upper : Nat) : Nat × Nat :=
  arraySearch (fun v k => decide (tid_cmp v k < 0))
    (fun v k => decide (tid_cmp v k ≤ 0)) arr key lower upper

instance : LinearOrder ItemPointerData :=
  LinearOrder.lift' (fun t => toLex (t.block, t.offset)) (by
    intro a b h
    cases a
    cases b
    simpa [Prod.ext_iff] using h)

theorem tid_lt_iff (a b : ItemPointerData) :
    a < b ↔ a.block < b.block ∨ (a.block = b.block ∧ a.offset < b.offset) := by
  constructor
  · intro h
    have h2 : toLex (a.block, a.offset) < toLex (b.block, b.offset) := by
      rcases lt_iff_le_not_le.mp h with ⟨h1, h2⟩
      exact lt_iff_le_not_le.mpr ⟨h1, h2⟩
    simpa [Prod.Lex.lt_iff] using h2
  · intro h
    have h2 : toLex (a.block, a.offset) < toLex (b.block, b.offset) := by
      simpa [Prod.Lex.lt_iff] using h
    rcases lt_iff_le_not_le.mp h2 with ⟨h1, h3⟩
    exact lt_iff_le_not_le.mpr ⟨h1, h3⟩

theorem tid_cmp_lt_iff (a b : ItemPointerData) : tid_cmp a b < 0 ↔ a < b := by
  rw [tid_lt_iff]
  unfold tid_cmp
  split
  · simp
    omega
  · split
    · simp
      omega
    · split
      · simp
        omega
      · split
        · simp
          omega
        · simp
          omega

theorem tid_cmp_le_iff (a b : ItemPointerData) : tid_cmp a b ≤ 0 ↔ a ≤ b := by
  rcases lt_trichotomy a b with h | h | h
  · have := (tid_cmp_lt_iff a b).mpr h
    constructor
    · intro _
      exact le_of_lt h
    · intro _
      omega
  · subst h
    unfold tid_cmp
    simp
  · have hba := (tid_cmp_lt_iff b a).mpr h
    have hne : ¬a < b := not_lt_of_gt h
    have : ¬tid_cmp a b < 0 := fun hc => hne ((tid_cmp_lt_iff a b).mp hc)
    constructor
    · intro hle
      have h0 : tid_cmp a b = 0 := by omega
      exfalso
      have : a.block = b.block ∧ a.offset = b.offset := by
        unfold tid_cmp at h0
        split at h0 <;> first | omega | skip
      have heq : a = b := by
        cases a
        cases b
        simp_all
      rw [heq] at h
      exact lt_irrefl b h
    · intro hle
      exact absurd (lt_of_le_of_lt hle h) (lt_irrefl a)

theorem searchLowerLoop_spec [LinearOrder α] (ltb : α → α → Bool)
    (hltb : ∀ a b, ltb a b = true ↔ a < b) (arr : Nat → α) (key : α) :
    ∀ fuel low high, high - low ≤ fuel → low ≤ high →
      (∀ i j, low ≤ i → i ≤ j → j < high → arr i ≤ arr j) →
      low ≤ searchLowerLoop ltb arr key fuel low high ∧
      searchLowerLoop ltb arr key fuel low high ≤ high ∧
      (∀ i, low ≤ i → i < searchLowerLoop ltb arr key fuel low high →
        arr i < key) ∧
      (∀ j, searchLowerLoop ltb arr key fuel low high ≤ j → j < high →
        key ≤ arr j) := by
  intro fuel
  induction fuel with
  | zero =>
    intro low high hf hle _
    simp only [searchLowerLoop]
    refine ⟨le_refl _, hle, ?_, ?_⟩
    · intro i h1 h2
      omega
    · intro j h1 h2
      omega
  | succ fuel ih =>
    intro low high hf hle hsort
    simp only [searchLowerLoop]
    by_cases hlh : low < high
    · simp only [if_pos hlh]
      have hmid1 : low ≤ low + (high - low) / 2 := Nat.le_add_right _ _
      have hmid2 : low + (high - low) / 2 < high := by
        have := Nat.div_lt_self (show 0 < high - low by omega)
          (show 1 < 2 by omega)
        omega
      by_cases hb : ltb (arr (low + (high - low) / 2)) key = true
      · simp only [if_pos hb]
        have hkey : arr (low + (high - low) / 2) < key := (hltb _ _).mp hb
        have := ih (low + (high - low) / 2 + 1) high (by omega) (by omega)
          (fun i j h1 h2 h3 => hsort i j (by omega) h2 h3)
        refine ⟨by omega, this.2.1, ?_, this.2.2.2⟩
        intro i h1 h2
        by_cases hi : low + (high - low) / 2 + 1 ≤ i
        · exact this.2.2.1 i hi h2
        · exact lt_of_le_of_lt
            (hsort i (low + (high - low) / 2) h1 (by omega) hmid2) hkey
      · simp only [if_neg hb]
        have hkey : key ≤ arr (low + (high - low) / 2) := by
          have : ¬arr (low + (high - low) / 2) < key := fun hc =>
            hb ((hltb _ _).mpr hc)
          exact le_of_not_lt this
        have := ih low (low + (high - low) / 2) (by omega) (by omega)
          (fun i j h1 h2 h3 => hsort i j h1 h2 (by omega))
        refine ⟨this.1, by omega, this.2.2.1, ?_⟩
        intro j h1 h2
        by_cases hj : j < low + (high - low) / 2
        · exact this.2.2.2 j h1 hj
        · exact le_trans hkey
            (hsort (low + (high - low) / 2) j hmid1 (by omega) h2)
    · simp only [if_neg hlh]
      refine ⟨le_refl _, hle, ?_, ?_⟩
      · intro i h1 h2
        omega
      · intro j h1 h2
        omega

theorem searchUpperLoop_spec [LinearOrder α] (leb : α → α → Bool)
    (hleb : ∀ a b, leb a b = true ↔ a ≤ b) (arr : Nat → α) (key : α) :
    ∀ fuel low high, high - low ≤ fuel → low ≤ high →
      (∀ i j, low ≤ i → i ≤ j → j < high → arr i ≤ arr j) →
      low ≤ searchUpperLoop leb arr key fuel low high ∧
      searchUpperLoop leb arr key fuel low high ≤ high ∧
      (∀ i, low ≤ i → i < searchUpperLoop leb arr key fuel low high →
        arr i ≤ key) ∧
      (∀ j, searchUpperLoop leb arr key fuel low high ≤ j → j < high →
        key < arr j) := by
  intro fuel
  induction fuel with
  | zero =>
    intro low high hf hle _
    simp only [searchUpperLoop]
    refine ⟨le_refl _, hle, ?_, ?_⟩
    · intro i h1 h2
      omega
    · intro j h1 h2
      omega
  | succ fuel ih =>
    intro low high hf hle hsort
    simp only [searchUpperLoop]
    by_cases hlh : low < high
    · simp only [if_pos hlh]
      have hmid1 : low ≤ low + (high - low) / 2 := Nat.le_add_right _ _
      have hmid2 : low + (high - low) / 2 < high := by
        have := Nat.div_lt_self (show 0 < high - low by omega)
          (show 1 < 2 by omega)
        omega
      by_cases hb : leb (arr (low + (high - low) / 2)) key = true
      · simp only [if_pos hb]
        have hkey : arr (low + (high - low) / 2) ≤ key := (hleb _ _).mp hb
        have := ih (low + (high - low) / 2 + 1) high (by omega) (by omega)
          (fun i j h1 h2 h3 => hsort i j (by omega) h2 h3)
        refine ⟨by omega, this.2.1, ?_, this.2.2.2⟩
        intro i h1 h2
        by_cases hi : low + (high - low) / 2 + 1 ≤ i
        · exact this.2.2.1 i hi h2
        · exact le_trans
            (hsort i (low + (high - low) / 2) h1 (by omega) hmid2) hkey
      · simp only [if_neg hb]
        have hkey : key < arr (low + (high - low) / 2) := by
          have : ¬arr (low + (high - low) / 2) ≤ key := fun hc =>
            hb ((hleb _ _).mpr hc)
          exact lt_of_not_le this
        have := ih low (low + (high - low) / 2) (by omega) (by omega)
          (fun i j h1 h2 h3 => hsort i j h1 h2 (by omega))
        refine ⟨this.1, by omega, this.2.2.1, ?_⟩
        intro j h1 h2
        by_cases hj : j < low + (high - low) / 2
        · exact this.2.2.2 j h1 hj
        · exact lt_of_lt_of_le hkey
            (hsort (low + (high - low) / 2) j hmid1 (by omega) h2)
    · simp only [if_neg hlh]
      refine ⟨le_refl _, hle, ?_, ?_⟩
      · intro i h1 h2
        omega
      · intro j h1 h2
        omega

/-- The conclusion of claim C5 for one stride-search routine: on return,
`[lower, upper)` has been narrowed to `[l, u)` with `l` the index of the first
element `≥ key`, `u` the index of the first element `> key`, and `[l, u)`
exactly the set of indices holding the key. -/
def SearchResultSpec [LinearOrder α] (arr : Nat → α) (key : α)
    (lower upper : Nat) (r : Nat × Nat) : Prop :=
  lower ≤ r.1 ∧ r.1 ≤ r.2 ∧ r.2 ≤ upper ∧
  (∀ i, lower ≤ i → i < r.1 → arr i < key) ∧
  (∀ i, r.1 ≤ i → i < upper → key ≤ arr i) ∧
  (∀ i, lower ≤ i → i < r.2 → arr i ≤ key) ∧
  (∀ i, r.2 ≤ i → i < upper → key < arr i) ∧
  (∀ i, lower ≤ i → i < upper → (arr i = key ↔ r.1 ≤ i ∧ i < r.2))

theorem arraySearch_spec [LinearOrder α] (ltb leb : α → α → Bool)
    (hltb : ∀ a b, ltb a b = true ↔ a < b)
    (hleb : ∀ a b, leb a b = true ↔ a ≤ b)
    (arr : Nat → α) (key : α) (lower upper : Nat) (hle : lower ≤ upper)
    (hsort : ∀ i j, lower ≤ i → i ≤ j → j < upper → arr i ≤ arr j) :
    SearchResultSpec arr key lower upper
      (arraySearch ltb leb arr key lower upper) := by
  unfold arraySearch SearchResultSpec
  dsimp only
  have hl := searchLowerLoop_spec ltb hltb arr key (upper - lower) lower upper
    (le_refl _) hle hsort
  set l := searchLowerLoop ltb arr key (upper - lower) lower upper with hldef
  have hu := searchUpperLoop_spec leb hleb arr key (upper - l) l upper
    (le_refl _) hl.2.1
    (fun i j h1 h2 h3 => hsort i j (le_trans hl.1 h1) h2 h3)
  set u := searchUpperLoop leb arr key (upper - l) l upper with hudef
  refine ⟨hl.1, hu.1, hu.2.1, hl.2.2.1, hl.2.2.2, ?_, hu.2.2.2, ?_⟩
  · intro i h1 h2
    by_cases hi : l ≤ i
    · exact hu.2.2.1 i hi h2
    · exact le_of_lt (hl.2.2.1 i h1 (by omega))
  · intro i h1 h2
    constructor
    · intro heq
      constructor
      · by_contra hc
        have := hl.2.2.1 i h1 (by omega)
        rw [heq] at this
        exact lt_irrefl key this
      · by_contra hc
        have := hu.2.2.2 i (by omega) h2
        rw [heq] at this
        exact lt_irrefl key this
    · intro ⟨ha, hb⟩
      exact le_antisymm (hu.2.2.1 i ha hb) (hl.2.2.2 i ha h2)

/--
C5: each per-type stride-search routine (`oid_array_search`,
`int4_array_search`, `int8_array_search`, `float4_array_search`,
`float8_array_search`, `tid_array_search`), applied to an array segment
sorted under the type's order with initial half-open bounds
`[lower, upper)`, returns `*lower` pointing at the first element `≥ key` and
`*upper` at the first element `> key` within the original bounds, so that
`[lower, upper)` is exactly the range of elements equal to the key.
-/
theorem c5_stride_search_bounds :
    (∀ (arr : Nat → Nat) key lower upper, lower ≤ upper →
      (∀ i j, lower ≤ i → i ≤ j → j < upper → arr i ≤ arr j) →
      SearchResultSpec arr key lower upper
        (oid_array_search arr key lower upper)) ∧
    (∀ (arr : Nat → Int) key lower upper, lower ≤ upper →
      (∀ i j, lower ≤ i → i ≤ j → j < upper → arr i ≤ arr j) →
      SearchResultSpec arr key lower upper
        (int4_array_search arr key lower upper)) ∧
    (∀ (arr : Nat → Int) key lower upper, lower ≤ upper →
      (∀ i j, lower ≤ i → i ≤ j → j < upper → arr i ≤ arr j) →
      SearchResultSpec arr key lower upper
        (int8_array_search arr key lower upper)) ∧
    (∀ (arr : Nat → ℚ) key lower upper, lower ≤ upper →
      (∀ i j, lower ≤ i → i ≤ j → j < upper → arr i ≤ arr j) →
      SearchResultSpec arr key lower upper
        (float4_array_search arr key lower upper)) ∧
    (∀ (arr : Nat → ℚ) key lower upper, lower ≤ upper →
      (∀ i j, lower ≤ i → i ≤ j → j < upper → arr i ≤ arr j) →
      SearchResultSpec arr key lower upper
        (float8_array_search arr key lower upper)) ∧
    (∀ (arr : Nat → ItemPointerData) key lower upper, lower ≤ upper →
      (∀ i j, lower ≤ i → i ≤ j → j < upper → arr i ≤ arr j) →
      SearchResultSpec arr key lower upper
        (tid_array_search arr key lower upper)) := by
  refine ⟨?_, ?_, ?_, ?_, ?_, ?_⟩
  · intro arr key lower upper hle hsort
    exact arraySearch_spec _ _ (by intro a b; simp) (by intro a b; simp)
      arr key lower upper hle hsort
  · intro arr key lower upper hle hsort
    exact arraySearch_spec _ _ (by intro a b; simp) (by intro a b; simp)
      arr key lower upper hle hsort
  · intro arr key lower upper hle hsort
    exact arraySearch_spec _ _ (by intro a b; simp) (by intro a b; simp)
      arr key lower upper hle hsort
  · intro arr key lower upper hle hsort
    exact arraySearch_spec _ _ (by intro a b; simp) (by intro a b; simp)
      arr key lower upper hle hsort
  · intro arr key lower upper hle hsort
    exact arraySearch_spec _ _ (by intro a b; simp) (by intro a b; simp)
      arr key lower upper hle hsort
  · intro arr key lower upper hle hsort
    exact arraySearch_spec _ _
      (by intro a b; simpa using tid_cmp_lt_iff a b)
      (by intro a b; simpa using tid_cmp_le_iff a b)
      arr key lower upper hle hsort

/-- Concrete evaluation witness for C5: searching the INT4 stride array
`[10, 20, 30, 40]` for key `25` narrows `[0, 4)` to `[2, 2)` (first element
`≥ 25` and first `> 25` are both index 2), and the sortedness hypothesis holds. -/
theorem c5_stride_search_bounds_witness :
    int4_array_search (fun i => [10, 20, 30, 40].getD i 0) 25 0 4 = (2, 2) ∧
    SearchResultSpec (fun i => ([10, 20, 30, 40] : List Int).getD i 0) 25 0 4
      (int4_array_search (fun i => [10, 20, 30, 40].getD i 0) 25 0 4) := by
  constructor
  · rfl
  · exact c5_stride_search_bounds.2.1 (fun i => [10, 20, 30, 40].getD i 0)
      25 0 4 (by omega) (by
        intro i j h1 h2 h3
        interval_cases j <;> interval_cases i <;> decide)

end Fastpath

namespace OBuffers

/-- `O_BUFFERS_PER_GROUP` of `src/utils/o_buffers.c`. -/
def O_BUFFERS_PER_GROUP : Nat := 4

/--
Static configuration of `OBuffersDesc` (include/utils/o_buffers.h) as used by
the modelled routines.  `blcksz` stands for the compile-time constant
`ORIOLEDB_BLCKSZ`; `version` is the per-tag current format version;
`transform` is the per-tag `OBuffersTransformCallback`
(`(data, tag, fromVersion, toVersion) → bool`, mutating the data in place),
modelled as returning `some` transformed data on success and `none` on
failure.
-/
structure Desc where
  blcksz : Nat
  singleFileSize : Nat
  groupsCount : Nat
  version : Nat → Nat
  transform : Nat → Option ((Nat → Nat) → Nat → Nat → Nat → Option (Nat → Nat))

/-- An `OBuffer` slot (o_buffers.c).  The C sentinel `blockNum = -1` becomes
`none`; `data` maps a byte index inside the block to the byte value. -/
structure Buffer where
  blockNum : Option Nat
  shadowBlockNum : Option Nat
  tag : Nat
  shadowTag : Nat
  usageCount : Nat
  dirty : Bool
  data : Nat → Nat

/--
State threaded through the (single-worker) buffer-cache routines: the slot
table, the filesystem — per `(tag, fileNum, version)` existence, per
`(tag, version, blockNum)` block contents, and the order of unlinks — and the
`curFile*` single-slot per-worker file cache of `OBuffersDesc`.
-/
structure State where
  groups : Nat → Nat → Buffer
  disk : Nat → Nat → Nat → Option (Nat → Nat)
  extant : Nat → Nat → Nat → Bool
  unlinkLog : List (Nat × Nat × Nat)
  curFileValid : Bool
  curFileTag : Nat
  curFileNum : Nat
  curFileVersion : Nat

/-- Functional update of slot `i` of group `g`. -/
def updateSlot (groups : Nat → Nat → Buffer) (g i : Nat) (b : Buffer) :
    Nat → Nat → Buffer :=
  fun g2 i2 => if g2 = g ∧ i2 = i then b else groups g2 i2

/-- Functional replacement of a whole group. -/
def updateGroup (groups : Nat → Nat → Buffer) (g : Nat)
    (grp : Nat → Buffer) : Nat → Nat → Buffer :=
  fun g2 i2 => if g2 = g then grp i2 else groups g2 i2

/-- A single `PathNameOpenFile(name, O_RDWR | O_CREAT | PG_BINARY)` attempt on
a healthy filesystem: because every attempt passes `O_CREAT`, the open
creates the file when it is absent and succeeds either way. -/
def pathNameOpenFileCreate (fileExists : Bool) : Bool := true

/-- The version-search loop of `open_file` (o_buffers.c): try the configured
current version first, then fall back through `.N` suffixes down to the
unversioned base name (version 0), stopping at the first attempt that
succeeds; returns the version whose attempt succeeded. -/
def open_file_try (fileExists : Nat → Bool) : Nat → Option Nat
  | 0 => if pathNameOpenFileCreate (fileExists 0) then some 0 else none
  | v + 1 =>
    if pathNameOpenFileCreate (fileExists (v + 1)) then some (v + 1)
    else open_file_try fileExists v

/-- `open_file` of o_buffers.c: return immediately when the single-slot file
cache already holds `(tag, fileNum)`; otherwise run the version-search loop,
record `curFileNum`/`curFileTag`, and on success record the opened version
(the opened file now exists on disk — `O_CREAT`).  The `PANIC` branch on
failure is modelled by an invalidated file cache; it is unreachable because
`open_file_try` always succeeds. -/
def open_file (desc : Desc) (s : State) (tag fileNum : Nat) : State :=
  if s.curFileValid = true ∧ s.curFileNum = fileNum ∧ s.curFileTag = tag then s
  else
    match open_file_try (fun v => s.extant tag fileNum v) (desc.version tag) with
    | some v =>
      { s with
        curFileValid := true
        curFileTag := tag
        curFileNum := fileNum
        curFileVersion := v
        extant := fun t f v2 =>
          if t = tag ∧ f = fileNum ∧ v2 = v then true else s.extant t f v2 }
    | none =>
      { s with curFileValid := false, curFileTag := tag, curFileNum := fileNum }

/-- The version list unlinked by `unlink_file` (o_buffers.c): every version of
the file, from the configured current version down to the unversioned base
name (version 0), in that order. -/
def unlink_file_versions (tag fileNum : Nat) : Nat → List (Nat × Nat × Nat)
  | 0 => [(tag, fileNum, 0)]
  | v + 1 => (tag, fileNum, v + 1) :: unlink_file_versions tag fileNum v

/-- `unlink_file` of o_buffers.c: unlink all versions of the file in
descending version order. -/
def unlink_file (desc : Desc) (s : State) (tag fileNum : Nat) : State :=
  { s with
    extant := fun t f v =>
      if t = tag ∧ f = fileNum ∧ v ≤ desc.version tag then false
      else s.extant t f v
    unlinkLog :=
      s.unlinkLog ++ unlink_file_versions tag fileNum (desc.version tag) }

/-- `write_buffer_data` of o_buffers.c: open the file covering `blockNum`
(file number `blockNum / (singleFileSize / BLCKSZ)`) and write the block at
its offset inside that file, i.e. at block granularity the write targets
block `blockNum` of the tag's file space at the version of the opened file. -/
def write_buffer_data (desc : Desc) (s : State) (data : Nat → Nat)
    (tag blockNum : Nat) : State :=
  let s1 := open_file desc s tag (blockNum / (desc.singleFileSize / desc.blcksz))
  { s1 with
    disk := fun t v b =>
      if t = tag ∧ v = s1.curFileVersion ∧ b = blockNum then some data
      else s1.disk t v b }

/-- Contents of block `blockNum` of tag `tag`'s file space at format version
`v`, zero-filled when the read goes past the end of the file (`read_buffer`
zero-fills the remainder after a short read). -/
def diskBlock (s : State) (tag v blockNum : Nat) : Nat → Nat :=
  match s.disk tag v blockNum with
  | some f => f
  | none => fun _ => 0

/-- `read_buffer` of o_buffers.c applied to slot `i` of group `g`: open the
file covering the slot's block, read the block (zero-filling past EOF) into
the slot, and, when the opened file's version is strictly older than the
configured current version and a transform callback is registered, apply the
callback in place.  A failed transform PANICs in C; the model keeps the data
untransformed on that unreachable path. -/
def read_buffer (desc : Desc) (s : State) (g i : Nat) : State :=
  let buf := s.groups g i
  let blk := buf.blockNum.getD 0
  let s1 := open_file desc s buf.tag (blk / (desc.singleFileSize / desc.blcksz))
  let fileVersion := s1.curFileVersion
  let data0 := diskBlock s1 buf.tag fileVersion blk
  let data1 :=
    if fileVersion < desc.version buf.tag then
      match desc.transform buf.tag with
      | some cb =>
        match cb data0 buf.tag fileVersion (desc.version buf.tag) with
        | some d => d
        | none => data0
      | none => data0
    else data0
  { s1 with groups := updateSlot s1.groups g i { buf with data := data1 } }

/-- The shared-lock lookup loop of `get_buffer` (o_buffers.c): index of the
first of the group's four slots holding `(tag, blockNum)`. -/
def scanHit (grp : Nat → Buffer) (tag blockNum : Nat) : Option Nat :=
  (List.range O_BUFFERS_PER_GROUP).find?
    (fun i => decide ((grp i).blockNum = some blockNum ∧ (grp i).tag = tag))

/--
The exclusive-lock loop of `get_buffer` (o_buffers.c): re-check each slot for
the wanted block (early return on a hit), wait out any in-progress reload
whose shadow identity matches (`LWLockAcquireOrWait`, a no-op on the
single-worker state), track the slot with the smallest usage count seen so
far (the first slot is always taken), and halve every inspected slot's usage
count.  Returns the hit slot if any, the chosen victim, and the group with
the aged usage counts.
-/
def victimScanLoop (tag blockNum : Nat) :
    List Nat → (Nat → Buffer) → Nat → Nat →
    Option Nat × Nat × (Nat → Buffer)
  | [], grp, victim, _ => (none, victim, grp)
  | i :: rest, grp, victim, victimUsage =>
    if (grp i).blockNum = some blockNum ∧ (grp i).tag = tag then
      (some i, victim, grp)
    else
      let takeVictim := i = 0 ∨ (grp i).usageCount < victimUsage
      let victim2 := if takeVictim then i else victim
      let victimUsage2 :=
        if takeVictim then (grp i).usageCount else victimUsage
      let grp2 := fun j =>
        if j = i then { grp i with usageCount := (grp i).usageCount / 2 }
        else grp j
      victimScanLoop tag blockNum rest grp2 victim2 victimUsage2

/--
`get_buffer` of o_buffers.c on the single-worker state: look the block up in
its group (`blockNum mod groupsCount`); on a hit bump the slot's usage count
and return the slot.  On a miss, rescan the group under the exclusive group
lock (re-check, shadow wait, victim choice with clock-like aging), publish
the victim's previous identity in its shadow fields, install the new
identity, write the previous contents out if they were dirty, read the block
in, and clear the shadow block number.  Returns the state together with the
group and slot index of the returned buffer.
-/
def get_buffer (desc : Desc) (s : State) (tag blockNum : Nat)
    (write : Bool) : State × Nat × Nat :=
  let g := blockNum % desc.groupsCount
  match scanHit (s.groups g) tag blockNum with
  | some i =>
    let buf := s.groups g i
    ({ s with groups :=
        updateSlot s.groups g i { buf with usageCount := buf.usageCount + 1 } },
      g, i)
  | none =>
    match victimScanLoop tag blockNum (List.range O_BUFFERS_PER_GROUP)
        (s.groups g) 0 0 with
    | (some i, _, grp2) =>
      let buf := grp2 i
      ({ s with groups :=
          updateSlot (updateGroup s.groups g grp2) g i { buf with usageCount := buf.usageCount + 1 } },
        g, i)
    | (none, victim, grp2) =>
      let s2 := { s with groups := updateGroup s.groups g grp2 }
      let buf := grp2 victim
      let prevDirty := buf.dirty
      let prevBlockNum := buf.blockNum
      let prevTag := buf.tag
      let buf2 := { buf with usageCount := 1, dirty := false, blockNum := some blockNum, tag := tag, shadowBlockNum := prevBlockNum, shadowTag := prevTag }
      let s3 := { s2 with groups := updateSlot s2.groups g victim buf2 }
      let s4 :=
        if prevDirty then
          write_buffer_data desc s3 buf.data prevTag (prevBlockNum.getD 0)
        else s3
      let s5 := read_buffer desc s4 g victim
      let s6 := { s5 with groups := updateSlot s5.groups g victim { s5.groups g victim with shadowBlockNum := none } }
      (s6, g, victim)

/-- The `copySize`/`copyOffset` pair computed by the first/last/middle-block
if/else chain inside the block loop of `o_buffers_rw`. -/
def rwCopy (B offset size first last blockNum : Nat) : Nat × Nat :=
  if first = last then (size, offset % B)
  else if blockNum = first then (B - offset % B, offset % B)
  else if blockNum = last then ((offset + size - 1) % B + 1, 0)
  else (B, 0)

/--
The body of one iteration of the block loop of `o_buffers_rw` (o_buffers.c):
get the buffer for `blockNum`, compute the copy size and in-block offset for
the first/last/middle block cases, and either copy the caller bytes into the
slot (marking it dirty) or copy the slot bytes out to the caller buffer;
`ptr` is the running offset into the caller buffer.
-/
def rwStep (desc : Desc) (tag offset size : Nat) (write : Bool)
    (first last blockNum : Nat) (s : State) (buf : Nat → Nat) (ptr : Nat) :
    State × (Nat → Nat) × Nat :=
  let r := get_buffer desc s tag blockNum write
  let s1 := r.1
  let g := r.2.1
  let i := r.2.2
  let copy := rwCopy desc.blcksz offset size first last blockNum
  let copySize := copy.1
  let copyOffset := copy.2
  match write with
  | true =>
    let slot := s1.groups g i
    let newData := fun k =>
      if copyOffset ≤ k ∧ k < copyOffset + copySize then
        buf (ptr + (k - copyOffset))
      else slot.data k
    ({ s1 with groups :=
        updateSlot s1.groups g i { slot with data := newData, dirty := true } },
      buf, ptr + copySize)
  | false =>
    let slot := s1.groups g i
    let newBuf := fun k =>
      if ptr ≤ k ∧ k < ptr + copySize then slot.data (copyOffset + (k - ptr))
      else buf k
    (s1, newBuf, ptr + copySize)

/-- The `for (blockNum = firstBlockNum; blockNum <= lastBlockNum; blockNum++)`
loop of `o_buffers_rw`, rendered as a count-down recursion starting at block
`cur` with `cnt` blocks left. -/
def rwBlocks (desc : Desc) (tag offset size : Nat) (write : Bool)
    (first last : Nat) : Nat → Nat → State → (Nat → Nat) → Nat →
    State × (Nat → Nat)
  | _, 0, s, buf, _ => (s, buf)
  | cur, cnt + 1, s, buf, ptr =>
    let r := rwStep desc tag offset size write first last cur s buf ptr
    rwBlocks desc tag offset size write first last (cur + 1) cnt r.1 r.2.1 r.2.2

/-- `o_buffers_rw` of o_buffers.c: iterate over the blocks covered by
`[offset, offset + size)`; returns the final state and the caller buffer
(updated in place by a read, unchanged by a write). -/
def o_buffers_rw (desc : Desc) (s : State) (buf : Nat → Nat)
    (tag offset size : Nat) (write : Bool) : State × (Nat → Nat) :=
  let first := offset / desc.blcksz
  let last := (offset + size - 1) / desc.blcksz
  rwBlocks desc tag offset size write first last first (last + 1 - first) s buf 0

/-- `o_buffers_read` of o_buffers.c (asserts `offset >= 0 && size > 0`). -/
def o_buffers_read (desc : Desc) (s : State) (buf : Nat → Nat)
    (tag offset size : Nat) : State × (Nat → Nat) :=
  o_buffers_rw desc s buf tag offset size false

/-- `o_buffers_write` of o_buffers.c (asserts `offset >= 0 && size > 0`). -/
def o_buffers_write (desc : Desc) (s : State) (buf : Nat → Nat)
    (tag offset size : Nat) : State × (Nat → Nat) :=
  o_buffers_rw desc s buf tag offset size true

/-- Does an `Option` block number fall inside `[first, last]`?  (`-1`, i.e.
`none`, never does, matching the C comparison against a negative sentinel.) -/
def blockCovered (b : Option Nat) (first last : Nat) : Bool :=
  match b with
  | some b2 => decide (first ≤ b2 ∧ b2 ≤ last)
  | none => false

/-- The slot body of the `o_buffers_wipe` double loop (o_buffers.c): a slot
that is dirty, carries the tag, and whose block lies in
`[firstBufferNumber, lastBufferNumber]` is invalidated without being written:
block number cleared to the `-1` sentinel, dirty flag cleared, tag zeroed. -/
def wipeSlot (tag first last : Nat) (s : State) (g j : Nat) : State :=
  let buf := s.groups g j
  if buf.dirty = true ∧ buf.tag = tag ∧
      blockCovered buf.blockNum first last = true then
    { s with groups :=
        updateSlot s.groups g j { buf with blockNum := none, dirty := false, tag := 0 } }
  else s

/-- `o_buffers_wipe` of o_buffers.c: visit every slot of every group. -/
def o_buffers_wipe (desc : Desc) (s : State) (tag first last : Nat) : State :=
  (List.range desc.groupsCount).foldl
    (fun s2 g =>
      (List.range O_BUFFERS_PER_GROUP).foldl
        (fun s3 j => wipeSlot tag first last s3 g j) s2)
    s

/-- The file loop of `o_buffers_unlink_files_range`, as a count-down
recursion over `cnt` files starting at `cur`. -/
def unlinkFilesLoop (desc : Desc) (tag : Nat) : Nat → Nat → State → State
  | _, 0, s => s
  | cur, cnt + 1, s =>
    unlinkFilesLoop desc tag (cur + 1) cnt (unlink_file desc s tag cur)

/-- `o_buffers_unlink_files_range` of o_buffers.c: wipe every resident dirty
block covered by files `firstFileNumber..lastFileNumber`, then unlink every
version of each covered file. -/
def o_buffers_unlink_files_range (desc : Desc) (s : State)
    (tag firstFileNumber lastFileNumber : Nat) : State :=
  let s1 := o_buffers_wipe desc s tag
    (firstFileNumber * (desc.singleFileSize / desc.blcksz))
    ((lastFileNumber + 1) * (desc.singleFileSize / desc.blcksz) - 1)
  unlinkFilesLoop desc tag firstFileNumber
    (lastFileNumber + 1 - firstFileNumber) s1

/-- Index of the slot currently caching `(tag, blk)`, if any; a block can
only reside in its own group. -/
def residentIdx (desc : Desc) (s : State) (tag blk : Nat) : Option Nat :=
  scanHit (s.groups (blk % desc.groupsCount)) tag blk

/-- The logical contents of `(tag, blk)`: the caching slot's bytes when the
block is resident, else the on-disk bytes of the current-version file. -/
def logicalData (desc : Desc) (s : State) (tag blk : Nat) : Nat → Nat :=
  match residentIdx desc s tag blk with
  | some i => (s.groups (blk % desc.groupsCount) i).data
  | none => diskBlock s tag (desc.version tag) blk

/--
Single-worker state invariant of the buffer cache:
no two slots of a group cache the same `(tag, block)`; a cached block lives
in its own group; a clean cached block's bytes agree with the
current-version on-disk bytes; and the single-slot file cache, when valid,
holds a file opened at the configured current version of its tag.
-/
structure Inv (desc : Desc) (s : State) : Prop where
  uniq : ∀ g i j b t, i < O_BUFFERS_PER_GROUP → j < O_BUFFERS_PER_GROUP →
    (s.groups g i).blockNum = some b → (s.groups g i).tag = t →
    (s.groups g j).blockNum = some b → (s.groups g j).tag = t → i = j
  grp : ∀ g i b, i < O_BUFFERS_PER_GROUP →
    (s.groups g i).blockNum = some b → b % desc.groupsCount = g
  dirtyValid : ∀ g i, i < O_BUFFERS_PER_GROUP →
    (s.groups g i).dirty = true → (s.groups g i).blockNum ≠ none
  clean : ∀ g i b, i < O_BUFFERS_PER_GROUP →
    (s.groups g i).blockNum = some b → (s.groups g i).dirty = false →
    ∀ k, k < desc.blcksz →
      (s.groups g i).data k =
        diskBlock s ((s.groups g i).tag)
          (desc.version ((s.groups g i).tag)) b k
  cur : s.curFileValid = true →
    s.curFileVersion = desc.version s.curFileTag

end OBuffers

namespace OBuffers

theorem open_file_try_eq_current (fe : Nat → Bool) (v : Nat) :
    open_file_try fe v = some v := by
  cases v <;> simp [open_file_try, pathNameOpenFileCreate]

/-- Modelled from the spec: `open(tag, fileNum)` searches for the highest
extant version, trying the configured current version first and falling back
through `.N` suffixes down to the unversioned base name; the version actually
opened is recorded.  This is the behaviour the specification describes for
`open_file`, used as the reference point for claim C2. -/
def openFileHighestExtant (fileExists : Nat → Bool) : Nat → Option Nat
  | 0 => if fileExists 0 then some 0 else none
  | v + 1 =>
    if fileExists (v + 1) then some (v + 1)
    else openFileHighestExtant fileExists v

/--
C2: evaluation of the version-search loop of `open_file` at the failing
input.  With the current version configured as 2 and only version 1 of the
file extant, every open attempt passes `O_RDWR | O_CREAT`, so the very first
attempt (version 2) succeeds by creating an empty current-version file: the
loop records version 2, not the highest extant version 1 that the claim (and
the in-code comment) say should be opened and read from.
-/
theorem c2_open_file_ocreat_no_fallback :
    open_file_try (fun v => decide (v = 1)) 2 = some 2 ∧
    openFileHighestExtant (fun v => decide (v = 1)) 2 = some 1 ∧
    (2 : Nat) ≠ 1 := by
  refine ⟨open_file_try_eq_current _ 2, by
    simp [openFileHighestExtant], by omega⟩

/-- The per-slot transformation performed by `o_buffers_wipe` on matching
slots. -/
def wipeXform (tag first last : Nat) (b : Buffer) : Buffer :=
  if b.dirty = true ∧ b.tag = tag ∧ blockCovered b.blockNum first last = true
  then { b with blockNum := none, dirty := false, tag := 0 }
  else b

theorem wipeSlot_groups_eq (tag first last : Nat) (s : State) (g j g2 i2 : Nat) :
    (wipeSlot tag first last s g j).groups g2 i2 =
      if g2 = g ∧ i2 = j then wipeXform tag first last (s.groups g j)
      else s.groups g2 i2 := by
  unfold wipeSlot wipeXform
  dsimp only
  split
  · simp [updateSlot]
  · by_cases h : g2 = g ∧ i2 = j
    · rw [if_pos h, h.1, h.2]
    · rw [if_neg h]

theorem wipeSlot_fields (tag first last : Nat) (s : State) (g j : Nat) :
    (wipeSlot tag first last s g j).disk = s.disk ∧
    (wipeSlot tag first last s g j).extant = s.extant ∧
    (wipeSlot tag first last s g j).unlinkLog = s.unlinkLog ∧
    (wipeSlot tag first last s g j).curFileValid = s.curFileValid ∧
    (wipeSlot tag first last s g j).curFileTag = s.curFileTag ∧
    (wipeSlot tag first last s g j).curFileNum = s.curFileNum ∧
    (wipeSlot tag first last s g j).curFileVersion = s.curFileVersion := by
  unfold wipeSlot
  dsimp only
  split <;> simp

theorem wipeInner_groups_eq (tag first last : Nat) (g : Nat) :
    ∀ (l : List Nat) (s : State), l.Nodup →
      (∀ g2 i2,
        ((l.foldl (fun s3 j => wipeSlot tag first last s3 g j) s).groups g2 i2 =
          if g2 = g ∧ i2 ∈ l then wipeXform tag first last (s.groups g i2)
          else s.groups g2 i2)) ∧
      ((l.foldl (fun s3 j => wipeSlot tag first last s3 g j) s).disk = s.disk ∧
       (l.foldl (fun s3 j => wipeSlot tag first last s3 g j) s).extant = s.extant ∧
       (l.foldl (fun s3 j => wipeSlot tag first last s3 g j) s).unlinkLog = s.unlinkLog ∧
       (l.foldl (fun s3 j => wipeSlot tag first last s3 g j) s).curFileValid = s.curFileValid ∧
       (l.foldl (fun s3 j => wipeSlot tag first last s3 g j) s).curFileTag = s.curFileTag ∧
       (l.foldl (fun s3 j => wipeSlot tag first last s3 g j) s).curFileNum = s.curFileNum ∧
       (l.foldl (fun s3 j => wipeSlot tag first last s3 g j) s).curFileVersion = s.curFileVersion) := by
  intro l
  induction l with
  | nil =>
    intro s _
    simp
  | cons j rest ih =>
    intro s hnd
    have hnd2 := hnd
    rw [List.nodup_cons] at hnd2
    obtain ⟨hjn, hndr⟩ := hnd2
    simp only [List.foldl_cons]
    have ihr := ih (wipeSlot tag first last s g j) hndr
    constructor
    · intro g2 i2
      rw [ihr.1 g2 i2]
      by_cases hmem : g2 = g ∧ i2 ∈ rest
      · rw [if_pos hmem]
        have hij : i2 ≠ j := fun hc => hjn (hc ▸ hmem.2)
        rw [wipeSlot_groups_eq]
        rw [if_neg (by intro hc; exact hij hc.2)]
        rw [if_pos ⟨hmem.1, List.mem_cons_of_mem j hmem.2⟩]
      · rw [if_neg hmem]
        rw [wipeSlot_groups_eq]
        by_cases hji : g2 = g ∧ i2 = j
        · rw [if_pos hji]
          rw [if_pos ⟨hji.1, by rw [hji.2]; exact List.mem_cons_self j rest⟩]
          rw [hji.2]
        · rw [if_neg hji]
          rw [if_neg (by
            intro hc
            rcases List.mem_cons.mp hc.2 with h2 | h2
            · exact hji ⟨hc.1, h2⟩
            · exact hmem ⟨hc.1, h2⟩)]
    · have hf := wipeSlot_fields tag first last s g j
      exact ⟨by rw [ihr.2.1, hf.1], by rw [ihr.2.2.1, hf.2.1],
        by rw [ihr.2.2.2.1, hf.2.2.1], by rw [ihr.2.2.2.2.1, hf.2.2.2.1],
        by rw [ihr.2.2.2.2.2.1, hf.2.2.2.2.1],
        by rw [ihr.2.2.2.2.2.2.1, hf.2.2.2.2.2.1],
        by rw [ihr.2.2.2.2.2.2.2, hf.2.2.2.2.2.2]⟩

end OBuffers

namespace OBuffers

theorem wipeOuter_groups_eq (tag first last : Nat) :
    ∀ (lg : List Nat) (s : State), lg.Nodup →
      (∀ g2 i2,
        ((lg.foldl (fun s2 g =>
            (List.range O_BUFFERS_PER_GROUP).foldl
              (fun s3 j => wipeSlot tag first last s3 g j) s2) s).groups g2 i2 =
          if g2 ∈ lg ∧ i2 < O_BUFFERS_PER_GROUP then
            wipeXform tag first last (s.groups g2 i2)
          else s.groups g2 i2)) ∧
      ((lg.foldl (fun s2 g =>
          (List.range O_BUFFERS_PER_GROUP).foldl
            (fun s3 j => wipeSlot tag first last s3 g j) s2) s).disk = s.disk ∧
       (lg.foldl (fun s2 g =>
          (List.range O_BUFFERS_PER_GROUP).foldl
            (fun s3 j => wipeSlot tag first last s3 g j) s2) s).extant = s.extant ∧
       (lg.foldl (fun s2 g =>
          (List.range O_BUFFERS_PER_GROUP).foldl
            (fun s3 j => wipeSlot tag first last s3 g j) s2) s).unlinkLog = s.unlinkLog) := by
  intro lg
  induction lg with
  | nil =>
    intro s _
    simp
  | cons g rest ih =>
    intro s hnd
    rw [List.nodup_cons] at hnd
    obtain ⟨hgn, hndr⟩ := hnd
    simp only [List.foldl_cons]
    have hin := wipeInner_groups_eq tag first last g (List.range O_BUFFERS_PER_GROUP) s
      (List.nodup_range _)
    have ihr := ih ((List.range O_BUFFERS_PER_GROUP).foldl
      (fun s3 j => wipeSlot tag first last s3 g j) s) hndr
    constructor
    · intro g2 i2
      rw [ihr.1 g2 i2]
      by_cases hmem : g2 ∈ rest ∧ i2 < O_BUFFERS_PER_GROUP
      · rw [if_pos hmem]
        have hgg : g2 ≠ g := fun hc => hgn (hc ▸ hmem.1)
        rw [hin.1 g2 i2, if_neg (by intro hc; exact hgg hc.1)]
        rw [if_pos ⟨List.mem_cons_of_mem g hmem.1, hmem.2⟩]
      · rw [if_neg hmem]
        rw [hin.1 g2 i2]
        by_cases hgi : g2 = g ∧ i2 ∈ List.range O_BUFFERS_PER_GROUP
        · rw [if_pos hgi]
          rw [if_pos ⟨by rw [hgi.1]; exact List.mem_cons_self g rest,
            List.mem_range.mp hgi.2⟩]
          rw [hgi.1]
        · rw [if_neg hgi]
          rw [if_neg (by
            intro hc
            rcases List.mem_cons.mp hc.1 with h2 | h2
            · exact hgi ⟨h2, List.mem_range.mpr hc.2⟩
            · exact hmem ⟨h2, hc.2⟩)]
    · exact ⟨by rw [ihr.2.1, hin.2.1], by rw [ihr.2.2.1, hin.2.2.1],
        by rw [ihr.2.2.2, hin.2.2.2.1]⟩

theorem o_buffers_wipe_spec (desc : Desc) (s : State) (tag first last : Nat) :
    (∀ g2 i2, (o_buffers_wipe desc s tag first last).groups g2 i2 =
      if g2 < desc.groupsCount ∧ i2 < O_BUFFERS_PER_GROUP then
        wipeXform tag first last (s.groups g2 i2)
      else s.groups g2 i2) ∧
    (o_buffers_wipe desc s tag first last).disk = s.disk ∧
    (o_buffers_wipe desc s tag first last).extant = s.extant ∧
    (o_buffers_wipe desc s tag first last).unlinkLog = s.unlinkLog := by
  have h := wipeOuter_groups_eq tag first last (List.range desc.groupsCount) s
    (List.nodup_range _)
  unfold o_buffers_wipe
  refine ⟨?_, h.2.1, h.2.2.1, h.2.2.2⟩
  intro g2 i2
  rw [h.1 g2 i2]
  by_cases hgi : g2 < desc.groupsCount ∧ i2 < O_BUFFERS_PER_GROUP
  · rw [if_pos ⟨List.mem_range.mpr hgi.1, hgi.2⟩, if_pos hgi]
  · rw [if_neg (fun hc => hgi ⟨List.mem_range.mp hc.1, hc.2⟩), if_neg hgi]

end OBuffers

namespace OBuffers

theorem unlink_file_versions_descending (tag f : Nat) :
    ∀ v, unlink_file_versions tag f v =
      (List.range (v + 1)).reverse.map (fun ver => (tag, f, ver)) := by
  intro v
  induction v with
  | zero => rfl
  | succ v ih =>
    rw [unlink_file_versions, ih]
    simp [List.range_succ]

/-- The cumulative unlink log produced by the file loop of
`o_buffers_unlink_files_range`: for each file in ascending file order, every
version from the configured current version down to 0. -/
def unlinkRangeLog (desc : Desc) (tag : Nat) : Nat → Nat → List (Nat × Nat × Nat)
  | _, 0 => []
  | cur, cnt + 1 =>
    unlink_file_versions tag cur (desc.version tag) ++
      unlinkRangeLog desc tag (cur + 1) cnt

theorem unlinkFilesLoop_spec (desc : Desc) (tag : Nat) :
    ∀ cnt cur (s : State),
      ((unlinkFilesLoop desc tag cur cnt s).groups = s.groups) ∧
      ((unlinkFilesLoop desc tag cur cnt s).disk = s.disk) ∧
      (∀ t f v, (unlinkFilesLoop desc tag cur cnt s).extant t f v =
        if t = tag ∧ cur ≤ f ∧ f < cur + cnt ∧ v ≤ desc.version tag then false
        else s.extant t f v) ∧
      ((unlinkFilesLoop desc tag cur cnt s).unlinkLog =
        s.unlinkLog ++ unlinkRangeLog desc tag cur cnt) := by
  intro cnt
  induction cnt with
  | zero =>
    intro cur s
    refine ⟨rfl, rfl, ?_, by simp [unlinkFilesLoop, unlinkRangeLog]⟩
    intro t f v
    show s.extant t f v = _
    rw [if_neg (by intro hc; omega)]
  | succ cnt ih =>
    intro cur s
    have hstep : unlinkFilesLoop desc tag cur (cnt + 1) s =
        unlinkFilesLoop desc tag (cur + 1) cnt (unlink_file desc s tag cur) := rfl
    rw [hstep]
    have ihr := ih (cur + 1) (unlink_file desc s tag cur)
    refine ⟨ihr.1, ihr.2.1, ?_, ?_⟩
    · intro t f v
      rw [ihr.2.2.1 t f v]
      show _ = if t = tag ∧ cur ≤ f ∧ f < cur + (cnt + 1) ∧ v ≤ desc.version tag
        then false else s.extant t f v
      by_cases h1 : t = tag ∧ cur + 1 ≤ f ∧ f < cur + 1 + cnt ∧ v ≤ desc.version tag
      · rw [if_pos h1, if_pos ⟨h1.1, by omega, by omega, h1.2.2.2⟩]
      · rw [if_neg h1]
        show (if t = tag ∧ f = cur ∧ v ≤ desc.version tag then false
          else s.extant t f v) = _
        by_cases h2 : t = tag ∧ f = cur ∧ v ≤ desc.version tag
        · rw [if_pos h2, if_pos ⟨h2.1, by omega, by omega, h2.2.2⟩]
        · rw [if_neg h2]
          by_cases h3 : t = tag ∧ cur ≤ f ∧ f < cur + (cnt + 1) ∧ v ≤ desc.version tag
          · exfalso
            rcases h3 with ⟨ht, hf1, hf2, hv⟩
            by_cases hfc : f = cur
            · exact h2 ⟨ht, hfc, hv⟩
            · exact h1 ⟨ht, by omega, by omega, hv⟩
          · rw [if_neg h3]
    · rw [ihr.2.2.2]
      show s.unlinkLog ++ unlink_file_versions tag cur (desc.version tag) ++
        unlinkRangeLog desc tag (cur + 1) cnt = _
      rw [List.append_assoc]
      rfl

/--
C9 (amended): `o_buffers_unlink_files_range(tag, first, last)` invalidates
without writing back exactly the resident buffer-cache slots that are DIRTY,
carry the tag, and whose block number is covered by files `first..last`
(clearing the slot's block number, tag and dirty flag); clean resident slots
— and slots holding blocks outside the range or other tags — are left
unchanged.  It then unlinks every version of each covered file, files in
ascending order and versions in descending order, leaving the on-disk block
contents (and the rest of the state) untouched.
-/
theorem c9_unlink_files_range_amended (desc : Desc) (s : State)
    (tag first last : Nat) :
    (∀ g i, g < desc.groupsCount → i < O_BUFFERS_PER_GROUP →
      (o_buffers_unlink_files_range desc s tag first last).groups g i =
        wipeXform tag (first * (desc.singleFileSize / desc.blcksz))
          ((last + 1) * (desc.singleFileSize / desc.blcksz) - 1)
          (s.groups g i)) ∧
    (∀ g i, desc.groupsCount ≤ g ∨ O_BUFFERS_PER_GROUP ≤ i →
      (o_buffers_unlink_files_range desc s tag first last).groups g i =
        s.groups g i) ∧
    (∀ t f v, (o_buffers_unlink_files_range desc s tag first last).extant t f v =
      if t = tag ∧ first ≤ f ∧ f ≤ last ∧ v ≤ desc.version tag then false
      else s.extant t f v) ∧
    ((o_buffers_unlink_files_range desc s tag first last).unlinkLog =
      s.unlinkLog ++ unlinkRangeLog desc tag first (last + 1 - first)) ∧
    ((o_buffers_unlink_files_range desc s tag first last).disk = s.disk) ∧
    (∀ f v, unlink_file_versions tag f v =
      (List.range (v + 1)).reverse.map (fun ver => (tag, f, ver))) := by
  have hw := o_buffers_wipe_spec desc s tag
    (first * (desc.singleFileSize / desc.blcksz))
    ((last + 1) * (desc.singleFileSize / desc.blcksz) - 1)
  have hu := unlinkFilesLoop_spec desc tag (last + 1 - first) first
    (o_buffers_wipe desc s tag
      (first * (desc.singleFileSize / desc.blcksz))
      ((last + 1) * (desc.singleFileSize / desc.blcksz) - 1))
  have hrange : ∀ f, (first ≤ f ∧ f < first + (last + 1 - first)) ↔
      (first ≤ f ∧ f ≤ last) := by
    intro f
    omega
  refine ⟨?_, ?_, ?_, ?_, ?_, fun f v => unlink_file_versions_descending tag f v⟩
  · intro g i hg hi
    show (unlinkFilesLoop desc tag first (last + 1 - first) _).groups g i = _
    rw [hu.1]
    rw [hw.1 g i, if_pos ⟨hg, hi⟩]
  · intro g i hgi
    show (unlinkFilesLoop desc tag first (last + 1 - first) _).groups g i = _
    rw [hu.1]
    rw [hw.1 g i, if_neg (by omega)]
  · intro t f v
    show (unlinkFilesLoop desc tag first (last + 1 - first) _).extant t f v = _
    rw [hu.2.2.1 t f v, hw.2.2.1]
    by_cases h1 : t = tag ∧ first ≤ f ∧ f ≤ last ∧ v ≤ desc.version tag
    · rw [if_pos ⟨h1.1, h1.2.1, by omega, h1.2.2.2⟩, if_pos h1]
    · rw [if_neg (by
        intro hc
        exact h1 ⟨hc.1, hc.2.1, by omega, hc.2.2.2⟩), if_neg h1]
  · show (unlinkFilesLoop desc tag first (last + 1 - first) _).unlinkLog = _
    rw [hu.2.2.2, hw.2.2.2]
  · show (unlinkFilesLoop desc tag first (last + 1 - first) _).disk = _
    rw [hu.2.1, hw.2.1]

end OBuffers

namespace OBuffers

/-- A small concrete configuration for evaluation: 4-byte blocks, one block
per file, a single group, all tags unversioned. -/
def descX : Desc :=
  { blcksz := 4, singleFileSize := 4, groupsCount := 1,
    version := fun _ => 0, transform := fun _ => none }

/-- An uninitialized slot (`o_buffers_shmem_init` state). -/
def emptyBuffer : Buffer :=
  { blockNum := none, shadowBlockNum := none, tag := 0, shadowTag := 0,
    usageCount := 0, dirty := false, data := fun _ => 0 }

/-- A state whose only resident block is a CLEAN block 4 of tag 1, cached in
slot 0 of group 0. -/
def cleanSlotState : State :=
  { groups := fun g i =>
      if g = 0 ∧ i = 0 then
        { emptyBuffer with blockNum := some 4, tag := 1, data := fun _ => 7 }
      else emptyBuffer,
    disk := fun _ _ _ => none, extant := fun _ _ _ => false, unlinkLog := [],
    curFileValid := false, curFileTag := 0, curFileNum := 0,
    curFileVersion := 0 }

/-- Same state with the resident block DIRTY. -/
def dirtySlotState : State :=
  { groups := fun g i =>
      if g = 0 ∧ i = 0 then
        { emptyBuffer with blockNum := some 4, tag := 1, dirty := true, data := fun _ => 7 }
      else emptyBuffer,
    disk := fun _ _ _ => none, extant := fun _ _ _ => false, unlinkLog := [],
    curFileValid := false, curFileTag := 0, curFileNum := 0,
    curFileVersion := 0 }

/--
C9 (counterexample): with one block per file, a CLEAN resident block 4 of
tag 1 is covered by `o_buffers_unlink_files_range(tag 1, files 3..5)` —
yet after the call the slot still holds block 4: the wipe loop of
`o_buffers_wipe` only invalidates slots whose dirty flag is set, so the
claim that EVERY resident covered block is invalidated (its block number
cleared) fails at this input.
-/
theorem c9_clean_slot_not_wiped_counterexample :
    ((cleanSlotState.groups 0 0).blockNum = some 4 ∧
     (cleanSlotState.groups 0 0).tag = 1 ∧
     (cleanSlotState.groups 0 0).dirty = false ∧
     blockCovered (cleanSlotState.groups 0 0).blockNum
       (3 * (descX.singleFileSize / descX.blcksz))
       ((5 + 1) * (descX.singleFileSize / descX.blcksz) - 1) = true) ∧
    ((o_buffers_unlink_files_range descX cleanSlotState 1 3 5).groups 0 0).blockNum
      = some 4 := by
  exact ⟨⟨rfl, rfl, rfl, rfl⟩, rfl⟩

/-- Witness instantiating the amended C9 theorem on a concrete dirty slot:
the dirty covered slot is rewritten by `wipeXform` (which clears it), and the
covered file `(tag 1, file 4, version 0)` is no longer extant afterwards. -/
theorem c9_unlink_files_range_amended_witness :
    (o_buffers_unlink_files_range descX dirtySlotState 1 3 5).groups 0 0 =
      wipeXform 1 (3 * (descX.singleFileSize / descX.blcksz))
        ((5 + 1) * (descX.singleFileSize / descX.blcksz) - 1)
        (dirtySlotState.groups 0 0) ∧
    (o_buffers_unlink_files_range descX dirtySlotState 1 3 5).extant 1 4 0 =
      false := by
  constructor
  · exact (c9_unlink_files_range_amended descX dirtySlotState 1 3 5).1 0 0
      (by decide) (by decide)
  · rw [(c9_unlink_files_range_amended descX dirtySlotState 1 3 5).2.2.1 1 4 0]
    rw [if_pos (by refine ⟨rfl, by omega, by omega, by decide⟩)]

end OBuffers

namespace OBuffers

theorem find?_congr_on {p q : Nat → Bool} :
    ∀ l : List Nat, (∀ a, a ∈ l → p a = q a) → l.find? p = l.find? q := by
  intro l
  induction l with
  | nil => intro _; rfl
  | cons a rest ih =>
    intro h
    have ha := h a (List.mem_cons_self a rest)
    simp only [List.find?]
    rw [ha]
    cases hq : q a
    · exact ih (fun b hb => h b (List.mem_cons_of_mem a hb))
    · rfl

theorem find?_unique_mem {p : Nat → Bool} :
    ∀ (l : List Nat) (i : Nat), i ∈ l → p i = true →
      (∀ j, j ∈ l → j ≠ i → p j = false) → l.find? p = some i := by
  intro l
  induction l with
  | nil => intro i hi; exact absurd hi (List.not_mem_nil i)
  | cons a rest ih =>
    intro i hi hp hun
    simp only [List.find?]
    by_cases hai : a = i
    · rw [hai, hp]
    · have hpa : p a = false :=
        hun a (List.mem_cons_self a rest) hai
      rw [hpa]
      have hir : i ∈ rest := by
        rcases List.mem_cons.mp hi with h | h
        · exact absurd h.symm hai
        · exact h
      exact ih i hir hp (fun j hj => hun j (List.mem_cons_of_mem a hj))

theorem scanHit_some {grp : Nat → Buffer} {tag blockNum i : Nat}
    (h : scanHit grp tag blockNum = some i) :
    i < O_BUFFERS_PER_GROUP ∧ (grp i).blockNum = some blockNum ∧
    (grp i).tag = tag := by
  unfold scanHit at h
  have hmem := List.mem_of_find?_eq_some h
  have hp := List.find?_some h
  refine ⟨List.mem_range.mp hmem, ?_, ?_⟩
  · exact (of_decide_eq_true hp).1
  · exact (of_decide_eq_true hp).2

theorem scanHit_none {grp : Nat → Buffer} {tag blockNum : Nat}
    (h : scanHit grp tag blockNum = none) :
    ∀ j, j < O_BUFFERS_PER_GROUP →
      ¬((grp j).blockNum = some blockNum ∧ (grp j).tag = tag) := by
  intro j hj
  unfold scanHit at h
  have := List.find?_eq_none.mp h j (List.mem_range.mpr hj)
  intro hc
  exact this (decide_eq_true hc)

theorem scanHit_congr {grp grp2 : Nat → Buffer} (tag blockNum : Nat)
    (h : ∀ j, j < O_BUFFERS_PER_GROUP →
      (grp2 j).blockNum = (grp j).blockNum ∧ (grp2 j).tag = (grp j).tag) :
    scanHit grp2 tag blockNum = scanHit grp tag blockNum := by
  unfold scanHit
  apply find?_congr_on
  intro a ha
  have hm := List.mem_range.mp ha
  rw [(h a hm).1, (h a hm).2]

theorem scanHit_unique {grp : Nat → Buffer} {tag blockNum i : Nat}
    (hi : i < O_BUFFERS_PER_GROUP)
    (hmatch : (grp i).blockNum = some blockNum ∧ (grp i).tag = tag)
    (hun : ∀ j, j < O_BUFFERS_PER_GROUP → j ≠ i →
      ¬((grp j).blockNum = some blockNum ∧ (grp j).tag = tag)) :
    scanHit grp tag blockNum = some i := by
  unfold scanHit
  exact find?_unique_mem _ i (List.mem_range.mpr hi) (decide_eq_true hmatch)
    (fun j hj hji => decide_eq_false (hun j (List.mem_range.mp hj) hji))

theorem victimScanLoop_no_match (tag blockNum : Nat) :
    ∀ (l : List Nat) (grp : Nat → Buffer) (victim victimUsage : Nat),
      (∀ j, j ∈ l → ¬((grp j).blockNum = some blockNum ∧ (grp j).tag = tag)) →
      (victimScanLoop tag blockNum l grp victim victimUsage).1 = none ∧
      ((victimScanLoop tag blockNum l grp victim victimUsage).2.1 ∈ l ∨
        (victimScanLoop tag blockNum l grp victim victimUsage).2.1 = victim) ∧
      (∀ j,
        ((victimScanLoop tag blockNum l grp victim victimUsage).2.2 j).blockNum
          = (grp j).blockNum ∧
        ((victimScanLoop tag blockNum l grp victim victimUsage).2.2 j).tag
          = (grp j).tag ∧
        ((victimScanLoop tag blockNum l grp victim victimUsage).2.2 j).dirty
          = (grp j).dirty ∧
        ((victimScanLoop tag blockNum l grp victim victimUsage).2.2 j).data
          = (grp j).data) := by
  intro l
  induction l with
  | nil =>
    intro grp victim victimUsage _
    exact ⟨rfl, Or.inr rfl, fun j => ⟨rfl, rfl, rfl, rfl⟩⟩
  | cons i rest ih =>
    intro grp victim victimUsage hnm
    have hni : ¬((grp i).blockNum = some blockNum ∧ (grp i).tag = tag) :=
      hnm i (List.mem_cons_self i rest)
    show (victimScanLoop tag blockNum (i :: rest) grp victim victimUsage).1
      = none ∧ _
    unfold victimScanLoop
    rw [if_neg hni]
    dsimp only
    set grp2 := fun j =>
      if j = i then { grp i with usageCount := (grp i).usageCount / 2 }
      else grp j with hgrp2
    have hpres : ∀ j, (grp2 j).blockNum = (grp j).blockNum ∧
        (grp2 j).tag = (grp j).tag ∧ (grp2 j).dirty = (grp j).dirty ∧
        (grp2 j).data = (grp j).data := by
      intro j
      rw [hgrp2]
      by_cases hji : j = i
      · subst hji
        simp
      · simp [hji]
    have hnm2 : ∀ j, j ∈ rest →
        ¬((grp2 j).blockNum = some blockNum ∧ (grp2 j).tag = tag) := by
      intro j hj hc
      exact hnm j (List.mem_cons_of_mem i hj)
        (by rw [← (hpres j).1, ← (hpres j).2.1]; exact hc)
    have ihr := ih grp2 (if i = 0 ∨ (grp i).usageCount < victimUsage then i
      else victim) (if i = 0 ∨ (grp i).usageCount < victimUsage then
      (grp i).usageCount else victimUsage) hnm2
    refine ⟨ihr.1, ?_, ?_⟩
    · rcases ihr.2.1 with h | h
      · exact Or.inl (List.mem_cons_of_mem i h)
      · rw [h]
        by_cases hc : i = 0 ∨ (grp i).usageCount < victimUsage
        · rw [if_pos hc]
          exact Or.inl (List.mem_cons_self i rest)
        · rw [if_neg hc]
          exact Or.inr rfl
    · intro j
      have h1 := ihr.2.2 j
      have h2 := hpres j
      exact ⟨h1.1.trans h2.1, h1.2.1.trans h2.2.1, h1.2.2.1.trans h2.2.2.1,
        h1.2.2.2.trans h2.2.2.2⟩

end OBuffers

namespace OBuffers

theorem diskBlock_eq_of_disk_eq {s s2 : State} (h : s2.disk = s.disk) :
    ∀ t v b, diskBlock s2 t v b = diskBlock s t v b := by
  intro t v b
  unfold diskBlock
  rw [h]

theorem open_file_spec (desc : Desc) (s : State) (tag fileNum : Nat)
    (hcur : s.curFileValid = true →
      s.curFileVersion = desc.version s.curFileTag) :
    (open_file desc s tag fileNum).groups = s.groups ∧
    (open_file desc s tag fileNum).disk = s.disk ∧
    (open_file desc s tag fileNum).curFileValid = true ∧
    (open_file desc s tag fileNum).curFileTag = tag ∧
    (open_file desc s tag fileNum).curFileVersion = desc.version tag := by
  unfold open_file
  split
  · rename_i h
    exact ⟨rfl, rfl, h.1, h.2.2,
      (hcur h.1).trans (congrArg desc.version h.2.2)⟩
  · rw [open_file_try_eq_current]
    exact ⟨rfl, rfl, rfl, rfl, rfl⟩

theorem write_buffer_data_spec (desc : Desc) (s : State) (data : Nat → Nat)
    (tag blockNum : Nat)
    (hcur : s.curFileValid = true →
      s.curFileVersion = desc.version s.curFileTag) :
    (write_buffer_data desc s data tag blockNum).groups = s.groups ∧
    (∀ t v b, (write_buffer_data desc s data tag blockNum).disk t v b =
      if t = tag ∧ v = desc.version tag ∧ b = blockNum then some data
      else s.disk t v b) ∧
    (write_buffer_data desc s data tag blockNum).curFileValid = true ∧
    (write_buffer_data desc s data tag blockNum).curFileTag = tag ∧
    (write_buffer_data desc s data tag blockNum).curFileVersion =
      desc.version tag := by
  have ho := open_file_spec desc s tag
    (blockNum / (desc.singleFileSize / desc.blcksz)) hcur
  unfold write_buffer_data
  dsimp only
  refine ⟨ho.1, ?_, ho.2.2.1, ho.2.2.2.1, ho.2.2.2.2⟩
  intro t v b
  rw [ho.2.2.2.2, ho.2.1]

theorem read_buffer_spec (desc : Desc) (s : State) (g i blk t0 : Nat)
    (hcur : s.curFileValid = true →
      s.curFileVersion = desc.version s.curFileTag)
    (hid : (s.groups g i).blockNum = some blk)
    (htag : (s.groups g i).tag = t0) :
    (∀ g2 i2, (read_buffer desc s g i).groups g2 i2 =
      if g2 = g ∧ i2 = i then
        { s.groups g i with data := diskBlock s t0 (desc.version t0) blk }
      else s.groups g2 i2) ∧
    (read_buffer desc s g i).disk = s.disk ∧
    (read_buffer desc s g i).curFileValid = true ∧
    (read_buffer desc s g i).curFileTag = t0 ∧
    (read_buffer desc s g i).curFileVersion = desc.version t0 := by
  have ho := open_file_spec desc s t0
    (blk / (desc.singleFileSize / desc.blcksz)) hcur
  unfold read_buffer
  dsimp only
  rw [hid, htag]
  simp only [Option.getD_some]
  rw [ho.2.2.2.2]
  rw [if_neg (lt_irrefl _)]
  refine ⟨?_, ho.2.1, ho.2.2.1, ho.2.2.2.1, rfl⟩
  intro g2 i2
  show updateSlot (open_file desc s t0
    (blk / (desc.singleFileSize / desc.blcksz))).groups g i _ g2 i2 = _
  rw [ho.1]
  unfold updateSlot
  by_cases h : g2 = g ∧ i2 = i
  · rw [if_pos h, if_pos h]
    rw [diskBlock_eq_of_disk_eq ho.2.1 t0 (desc.version t0) blk]
  · rw [if_neg h, if_neg h]

end OBuffers

namespace OBuffers

theorem scanHit_eq_none_of (grp : Nat → Buffer) (tag blockNum : Nat)
    (h : ∀ j, j < O_BUFFERS_PER_GROUP →
      ¬((grp j).blockNum = some blockNum ∧ (grp j).tag = tag)) :
    scanHit grp tag blockNum = none := by
  unfold scanHit
  rw [List.find?_eq_none]
  intro a ha
  intro hc
  exact h a (List.mem_range.mp ha) (of_decide_eq_true hc)

/-- A state whose slots agree with `s` on block number, tag, dirty flag and
data, with the same disk and a valid file cache, has the same residency map
and logical contents and still satisfies the invariant. -/
theorem state_pres_spec (desc : Desc) {s s2 : State} (hInv : Inv desc s)
    (hb : ∀ g i, (s2.groups g i).blockNum = (s.groups g i).blockNum)
    (ht : ∀ g i, (s2.groups g i).tag = (s.groups g i).tag)
    (hd : ∀ g i, (s2.groups g i).dirty = (s.groups g i).dirty)
    (hdata : ∀ g i, (s2.groups g i).data = (s.groups g i).data)
    (hdisk : s2.disk = s.disk)
    (hcur2 : s2.curFileValid = true →
      s2.curFileVersion = desc.version s2.curFileTag) :
    Inv desc s2 ∧
    (∀ t b, residentIdx desc s2 t b = residentIdx desc s t b) ∧
    (∀ t b, logicalData desc s2 t b = logicalData desc s t b) := by
  have hres : ∀ t b, residentIdx desc s2 t b = residentIdx desc s t b := by
    intro t b
    unfold residentIdx
    exact scanHit_congr t b (fun j _ => ⟨hb _ j, ht _ j⟩)
  refine ⟨?_, hres, ?_⟩
  · refine ⟨?_, ?_, ?_, ?_, hcur2⟩
    · intro g i j b t hi hj h1 h2 h3 h4
      exact hInv.uniq g i j b t hi hj (hb g i ▸ h1) (ht g i ▸ h2)
        (hb g j ▸ h3) (ht g j ▸ h4)
    · intro g i b hi h1
      exact hInv.grp g i b hi (hb g i ▸ h1)
    · intro g i hi h1
      rw [hb g i]
      exact hInv.dirtyValid g i hi (hd g i ▸ h1)
    · intro g i b hi h1 h2
      intro k hk
      rw [hdata g i, ht g i, diskBlock_eq_of_disk_eq hdisk]
      exact hInv.clean g i b hi (hb g i ▸ h1) (hd g i ▸ h2) k hk
  · intro t b
    unfold logicalData
    rw [hres t b]
    funext k
    cases hr : residentIdx desc s t b with
    | some j =>
      exact congrFun (hdata _ j) k
    | none =>
      exact congrFun (diskBlock_eq_of_disk_eq hdisk t (desc.version t) b) k

end OBuffers

namespace OBuffers

/-- The postcondition of `get_buffer`: the returned slot caches `(tag, blk)`
with the block's logical contents, and the logical contents of every block of
every tag are unchanged. -/
def GetBufferPost (desc : Desc) (s s2 : State) (tag blk g i : Nat) : Prop :=
  Inv desc s2 ∧ g = blk % desc.groupsCount ∧ i < O_BUFFERS_PER_GROUP ∧
  (s2.groups (blk % desc.groupsCount) i).blockNum = some blk ∧
  (s2.groups (blk % desc.groupsCount) i).tag = tag ∧
  (∀ k, k < desc.blcksz →
    (s2.groups (blk % desc.groupsCount) i).data k =
      logicalData desc s tag blk k) ∧
  (∀ t b k, k < desc.blcksz →
    logicalData desc s2 t b k = logicalData desc s t b k) ∧
  residentIdx desc s2 tag blk = some i

/-- The state produced by the eviction path of `get_buffer` (victim chosen,
identity republished, dirty previous contents flushed, block read in, shadow
cleared), written as an explicit composition for the proof. -/
def missState (desc : Desc) (s : State) (tag blk victim : Nat)
    (grp2 : Nat → Buffer) : State :=
  let g := blk % desc.groupsCount
  let buf := grp2 victim
  let buf2 : Buffer := { buf with usageCount := 1, dirty := false, blockNum := some blk, tag := tag, shadowBlockNum := buf.blockNum, shadowTag := buf.tag }
  let s3 : State := { s with groups := updateSlot (updateGroup s.groups g grp2) g victim buf2 }
  let s4 : State :=
    if buf.dirty = true then
      write_buffer_data desc s3 buf.data buf.tag (buf.blockNum.getD 0)
    else s3
  let s5 : State := read_buffer desc s4 g victim
  { s5 with groups := updateSlot s5.groups g victim { s5.groups g victim with shadowBlockNum := none } }

theorem get_buffer_miss_post (desc : Desc) (s : State) (hInv : Inv desc s)
    (tag blk victim : Nat) (grp2 : Nat → Buffer)
    (hscan : scanHit (s.groups (blk % desc.groupsCount)) tag blk = none)
    (hvic : victim < O_BUFFERS_PER_GROUP)
    (hpres : ∀ j,
      (grp2 j).blockNum = (s.groups (blk % desc.groupsCount) j).blockNum ∧
      (grp2 j).tag = (s.groups (blk % desc.groupsCount) j).tag ∧
      (grp2 j).dirty = (s.groups (blk % desc.groupsCount) j).dirty ∧
      (grp2 j).data = (s.groups (blk % desc.groupsCount) j).data) :
    GetBufferPost desc s (missState desc s tag blk victim grp2) tag blk
      (blk % desc.groupsCount) victim := by
  have hnm := scanHit_none hscan
  have hvicb := (hpres victim).1
  have hvict := (hpres victim).2.1
  have hvicd := (hpres victim).2.2.1
  have hvicdata := (hpres victim).2.2.2
  unfold GetBufferPost missState
  dsimp only
  set G := blk % desc.groupsCount with hG
  set buf2 : Buffer := { grp2 victim with usageCount := 1, dirty := false, blockNum := some blk, tag := tag, shadowBlockNum := (grp2 victim).blockNum, shadowTag := (grp2 victim).tag } with hbuf2
  set s3 : State := { s with groups := updateSlot (updateGroup s.groups G grp2) G victim buf2 } with hs3
  set s4 : State := if (grp2 victim).dirty = true then write_buffer_data desc s3 (grp2 victim).data (grp2 victim).tag ((grp2 victim).blockNum.getD 0) else s3 with hs4
  have hs3groups : ∀ g2 i2, s3.groups g2 i2 =
      if g2 = G ∧ i2 = victim then buf2
      else if g2 = G then grp2 i2 else s.groups g2 i2 := by
    intro g2 i2
    rw [hs3]
    show updateSlot (updateGroup s.groups G grp2) G victim buf2 g2 i2 = _
    unfold updateSlot updateGroup
    by_cases h1 : g2 = G ∧ i2 = victim
    · rw [if_pos h1]
    · rw [if_neg h1]
  have hs3disk : s3.disk = s.disk := by rw [hs3]
  have hcur3 : s3.curFileValid = true →
      s3.curFileVersion = desc.version s3.curFileTag := by
    rw [hs3]
    exact hInv.cur
  have hs4g : s4.groups = s3.groups := by
    rw [hs4]
    by_cases hd : (grp2 victim).dirty = true
    · rw [if_pos hd]
      exact (write_buffer_data_spec desc s3 _ _ _ hcur3).1
    · rw [if_neg hd]
  have hs4cur : s4.curFileValid = true →
      s4.curFileVersion = desc.version s4.curFileTag := by
    rw [hs4]
    by_cases hd : (grp2 victim).dirty = true
    · rw [if_pos hd]
      have hw := write_buffer_data_spec desc s3 (grp2 victim).data
        (grp2 victim).tag ((grp2 victim).blockNum.getD 0) hcur3
      intro _
      rw [hw.2.2.2.2, hw.2.2.2.1]
    · rw [if_neg hd]
      exact hcur3
  have hD : ∀ t b k, k < desc.blcksz →
      diskBlock s4 t (desc.version t) b k =
        if (s.groups G victim).blockNum = some b ∧
            (s.groups G victim).tag = t
        then (s.groups G victim).data k
        else diskBlock s t (desc.version t) b k := by
    intro t b k hk
    rw [hs4]
    by_cases hd : (grp2 victim).dirty = true
    · rw [if_pos hd]
      have hw := write_buffer_data_spec desc s3 (grp2 victim).data
        (grp2 victim).tag ((grp2 victim).blockNum.getD 0) hcur3
      have hdirty : (s.groups G victim).dirty = true := by
        rw [← hvicd]
        exact hd
      have hbne := hInv.dirtyValid G victim hvic hdirty
      obtain ⟨pb, hpb⟩ := Option.ne_none_iff_exists'.mp hbne
      have hgd : (grp2 victim).blockNum.getD 0 = pb := by
        rw [hvicb, hpb]
        rfl
      have hdisk4 := hw.2.1 t (desc.version t) b
      by_cases hc : (s.groups G victim).blockNum = some b ∧
          (s.groups G victim).tag = t
      · rw [if_pos hc]
        have hbp : b = pb := by
          have := hc.1.symm.trans hpb
          exact Option.some.inj this
        have hcond : t = (grp2 victim).tag ∧
            desc.version t = desc.version ((grp2 victim).tag) ∧
            b = (grp2 victim).blockNum.getD 0 := by
          refine ⟨by rw [hvict, hc.2], by rw [hvict, hc.2], by rw [hgd, hbp]⟩
        rw [if_pos hcond] at hdisk4
        unfold diskBlock
        rw [hdisk4]
        rw [hvicdata]
      · rw [if_neg hc]
        rw [if_neg (by
          intro hcc
          apply hc
          constructor
          · rw [hpb]
            rw [hcc.2.2, hgd]
          · rw [← hvict, ← hcc.1])] at hdisk4
        unfold diskBlock
        rw [hdisk4, hs3disk]
    · rw [if_neg hd]
      have hclean : (s.groups G victim).dirty = false := by
        rw [← hvicd]
        exact Bool.not_eq_true _ ▸ hd
      by_cases hc : (s.groups G victim).blockNum = some b ∧
          (s.groups G victim).tag = t
      · rw [if_pos hc]
        have hth := hInv.clean G victim b hvic hc.1 hclean k hk
        rw [hc.2] at hth
        rw [congrFun (diskBlock_eq_of_disk_eq hs3disk t (desc.version t) b) k]
        exact hth.symm
      · rw [if_neg hc]
        exact congrFun (diskBlock_eq_of_disk_eq hs3disk t (desc.version t) b) k
  have hid4 : (s4.groups G victim).blockNum = some blk ∧
      (s4.groups G victim).tag = tag := by
    rw [hs4g, hs3groups G victim, if_pos ⟨rfl, rfl⟩, hbuf2]
    exact ⟨rfl, rfl⟩
  have hd4f : (s4.groups G victim).dirty = false := by
    rw [hs4g, hs3groups G victim, if_pos ⟨rfl, rfl⟩, hbuf2]
  have hrb := read_buffer_spec desc s4 G victim blk tag hs4cur hid4.1 hid4.2
  set s5 : State := read_buffer desc s4 G victim with hs5
  set s6 : State := { s5 with groups := updateSlot s5.groups G victim { s5.groups G victim with shadowBlockNum := none } } with hs6
  have hs6groups : ∀ g2 i2, s6.groups g2 i2 =
      if g2 = G ∧ i2 = victim then
        { s5.groups G victim with shadowBlockNum := none }
      else s5.groups g2 i2 := by
    intro g2 i2
    rw [hs6]
    rfl
  have hs6disk : s6.disk = s4.disk := by
    rw [hs6]
    show s5.disk = s4.disk
    exact hrb.2.1
  have h6vic : (s6.groups G victim).blockNum = some blk ∧
      (s6.groups G victim).tag = tag ∧
      (s6.groups G victim).dirty = false ∧
      (s6.groups G victim).data =
        diskBlock s4 tag (desc.version tag) blk := by
    rw [hs6groups G victim, if_pos ⟨rfl, rfl⟩, hrb.1 G victim,
      if_pos ⟨rfl, rfl⟩]
    exact ⟨hid4.1, hid4.2, hd4f, rfl⟩
  have h6other : ∀ g2 i2, ¬(g2 = G ∧ i2 = victim) →
      s6.groups g2 i2 = if g2 = G then grp2 i2 else s.groups g2 i2 := by
    intro g2 i2 h
    rw [hs6groups g2 i2, if_neg h, hrb.1 g2 i2, if_neg h, hs4g,
      hs3groups g2 i2, if_neg h]
  have h6cur : s6.curFileValid = true →
      s6.curFileVersion = desc.version s6.curFileTag := by
    rw [hs6]
    intro _
    show s5.curFileVersion = desc.version s5.curFileTag
    rw [hrb.2.2.2.2, hrb.2.2.2.1]
  have hDtarget : ∀ k, k < desc.blcksz →
      diskBlock s4 tag (desc.version tag) blk k =
        diskBlock s tag (desc.version tag) blk k := by
    intro k hk
    rw [hD tag blk k hk, if_neg (fun hc => hnm victim hvic ⟨hc.1, hc.2⟩)]
  have hres6 : residentIdx desc s6 tag blk = some victim := by
    unfold residentIdx
    rw [← hG]
    apply scanHit_unique hvic ⟨h6vic.1, h6vic.2.1⟩
    intro j hj hji
    rw [h6other G j (fun hc => hji hc.2), if_pos rfl]
    intro hc
    exact hnm j hj ⟨by rw [← (hpres j).1]; exact hc.1,
      by rw [← (hpres j).2.1]; exact hc.2⟩
  have hpreserve : ∀ t b k, k < desc.blcksz →
      logicalData desc s6 t b k = logicalData desc s t b k := by
    intro t b k hk
    by_cases htb : t = tag ∧ b = blk
    · obtain ⟨rfl, rfl⟩ := htb
      have hrold : residentIdx desc s t b = none := by
        unfold residentIdx
        rw [← hG]
        exact hscan
      unfold logicalData
      rw [hres6, hrold]
      dsimp only
      rw [← hG]
      rw [congrFun h6vic.2.2.2 k]
      exact hDtarget k hk
    · cases hr : residentIdx desc s t b with
      | some j =>
        have hj : j < O_BUFFERS_PER_GROUP ∧
            (s.groups (b % desc.groupsCount) j).blockNum = some b ∧
            (s.groups (b % desc.groupsCount) j).tag = t :=
          scanHit_some hr
        by_cases hgv : b % desc.groupsCount = G ∧ j = victim
        · have hidb : (s.groups G victim).blockNum = some b := by
            rw [← hgv.1, ← hgv.2]
            exact hj.2.1
          have hidt : (s.groups G victim).tag = t := by
            rw [← hgv.1, ← hgv.2]
            exact hj.2.2
          have hrnew : residentIdx desc s6 t b = none := by
            unfold residentIdx
            apply scanHit_eq_none_of
            intro j2 hj2
            by_cases hj2v : j2 = victim
            · subst hj2v
              rw [hgv.1]
              intro hc
              refine htb ⟨?_, ?_⟩
              · rw [← hc.2, h6vic.2.1]
              · have := hc.1.symm.trans h6vic.1
                exact Option.some.inj this
            · rw [hgv.1]
              rw [h6other G j2 (fun hcc => hj2v hcc.2), if_pos rfl]
              intro hc
              have h1 : (s.groups G j2).blockNum = some b := by
                rw [← (hpres j2).1]
                exact hc.1
              have h2 : (s.groups G j2).tag = t := by
                rw [← (hpres j2).2.1]
                exact hc.2
              exact hj2v (hInv.uniq G j2 victim b t hj2 hvic h1 h2 hidb hidt)
          unfold logicalData
          rw [hrnew, hr]
          dsimp only
          rw [congrFun (diskBlock_eq_of_disk_eq hs6disk t (desc.version t) b) k]
          rw [hD t b k hk, if_pos ⟨hidb, hidt⟩]
          rw [hgv.1, hgv.2]
        · have hrnew : residentIdx desc s6 t b = some j := by
            unfold residentIdx
            apply scanHit_unique hj.1 ?hma ?hun
            case hma =>
              rw [h6other (b % desc.groupsCount) j hgv]
              by_cases hbg : b % desc.groupsCount = G
              · rw [if_pos hbg]
                rw [hbg] at hj
                exact ⟨by rw [(hpres j).1]; exact hj.2.1,
                  by rw [(hpres j).2.1]; exact hj.2.2⟩
              · rw [if_neg hbg]
                exact ⟨hj.2.1, hj.2.2⟩
            case hun =>
              intro j2 hj2 hj2j
              by_cases hj2v : b % desc.groupsCount = G ∧ j2 = victim
              · rw [hj2v.1, hj2v.2]
                intro hc
                refine htb ⟨?_, ?_⟩
                · rw [← hc.2, h6vic.2.1]
                · have := hc.1.symm.trans h6vic.1
                  exact Option.some.inj this
              · rw [h6other (b % desc.groupsCount) j2 hj2v]
                by_cases hbg : b % desc.groupsCount = G
                · rw [if_pos hbg]
                  intro hc
                  have h1 : (s.groups (b % desc.groupsCount) j2).blockNum =
                      some b := by
                    rw [hbg, ← (hpres j2).1]
                    exact hc.1
                  have h2 : (s.groups (b % desc.groupsCount) j2).tag = t := by
                    rw [hbg, ← (hpres j2).2.1]
                    exact hc.2
                  exact hj2j (hInv.uniq (b % desc.groupsCount) j2 j b t hj2
                    hj.1 h1 h2 hj.2.1 hj.2.2)
                · rw [if_neg hbg]
                  intro hc
                  exact hj2j (hInv.uniq (b % desc.groupsCount) j2 j b t hj2
                    hj.1 hc.1 hc.2 hj.2.1 hj.2.2)
          unfold logicalData
          rw [hrnew, hr]
          show (s6.groups (b % desc.groupsCount) j).data k =
            (s.groups (b % desc.groupsCount) j).data k
          rw [h6other (b % desc.groupsCount) j hgv]
          by_cases hbg : b % desc.groupsCount = G
          · rw [if_pos hbg, hbg]
            exact congrFun (hpres j).2.2.2 k
          · rw [if_neg hbg]
      | none =>
        have hold := scanHit_none
          (show scanHit (s.groups (b % desc.groupsCount)) t b = none from hr)
        have hrnew : residentIdx desc s6 t b = none := by
          unfold residentIdx
          apply scanHit_eq_none_of
          intro j2 hj2
          by_cases hj2v : b % desc.groupsCount = G ∧ j2 = victim
          · rw [hj2v.1, hj2v.2]
            intro hc
            refine htb ⟨?_, ?_⟩
            · rw [← hc.2, h6vic.2.1]
            · have := hc.1.symm.trans h6vic.1
              exact Option.some.inj this
          · rw [h6other (b % desc.groupsCount) j2 hj2v]
            by_cases hbg : b % desc.groupsCount = G
            · rw [if_pos hbg]
              intro hc
              apply hold j2 hj2
              rw [hbg]
              exact ⟨by rw [← (hpres j2).1]; exact hc.1,
                by rw [← (hpres j2).2.1]; exact hc.2⟩
            · rw [if_neg hbg]
              exact hold j2 hj2
        unfold logicalData
        rw [hrnew, hr]
        dsimp only
        rw [congrFun (diskBlock_eq_of_disk_eq hs6disk t (desc.version t) b) k]
        rw [hD t b k hk]
        rw [if_neg ?_]
        intro hc
        have hbG : b % desc.groupsCount = G := hInv.grp G victim b hvic hc.1
        exact hold victim hvic (by rw [hbG]; exact ⟨hc.1, hc.2⟩)
  refine ⟨?_, hG, hvic, h6vic.1, h6vic.2.1, ?_, hpreserve, hres6⟩
  · refine ⟨?_, ?_, ?_, ?_, h6cur⟩
    · intro g2 i j2 b t hi hj h1 h2 h3 h4
      by_cases hiv : g2 = G ∧ i = victim
      · by_cases hjv : g2 = G ∧ j2 = victim
        · rw [hiv.2, hjv.2]
        · exfalso
          rw [hiv.1, hiv.2] at h1 h2
          have hb : b = blk := by
            have := h1.symm.trans h6vic.1
            exact Option.some.inj this
          have ht2 : t = tag := by
            rw [← h2, h6vic.2.1]
          rw [h6other g2 j2 hjv, if_pos hiv.1] at h3 h4
          apply hnm j2 hj
          constructor
          · rw [← (hpres j2).1, h3, hb]
          · rw [← (hpres j2).2.1, h4, ht2]
      · by_cases hjv : g2 = G ∧ j2 = victim
        · exfalso
          rw [hjv.1, hjv.2] at h3 h4
          have hb : b = blk := by
            have := h3.symm.trans h6vic.1
            exact Option.some.inj this
          have ht2 : t = tag := by
            rw [← h4, h6vic.2.1]
          rw [h6other g2 i hiv, if_pos hjv.1] at h1 h2
          apply hnm i hi
          constructor
          · rw [← (hpres i).1, h1, hb]
          · rw [← (hpres i).2.1, h2, ht2]
        · rw [h6other g2 i hiv] at h1 h2
          rw [h6other g2 j2 hjv] at h3 h4
          by_cases hbg : g2 = G
          · rw [if_pos hbg] at h1 h2 h3 h4
            rw [(hpres i).1] at h1
            rw [(hpres i).2.1] at h2
            rw [(hpres j2).1] at h3
            rw [(hpres j2).2.1] at h4
            exact hInv.uniq G i j2 b t hi hj h1 h2 h3 h4
          · rw [if_neg hbg] at h1 h2 h3 h4
            exact hInv.uniq g2 i j2 b t hi hj h1 h2 h3 h4
    · intro g2 i b hi h1
      by_cases hiv : g2 = G ∧ i = victim
      · rw [hiv.1, hiv.2] at h1
        have hb : b = blk := by
          have := h1.symm.trans h6vic.1
          exact Option.some.inj this
        rw [hb, ← hG, hiv.1]
      · rw [h6other g2 i hiv] at h1
        by_cases hbg : g2 = G
        · rw [if_pos hbg] at h1
          rw [(hpres i).1] at h1
          rw [hbg]
          exact hInv.grp G i b hi h1
        · rw [if_neg hbg] at h1
          exact hInv.grp g2 i b hi h1
    · intro g2 i hi hdirty
      by_cases hiv : g2 = G ∧ i = victim
      · rw [hiv.1, hiv.2] at hdirty
        rw [h6vic.2.2.1] at hdirty
        exact absurd hdirty Bool.false_ne_true
      · rw [h6other g2 i hiv] at hdirty ⊢
        by_cases hbg : g2 = G
        · rw [if_pos hbg] at hdirty ⊢
          rw [(hpres i).2.2.1] at hdirty
          rw [(hpres i).1]
          exact hInv.dirtyValid G i hi hdirty
        · rw [if_neg hbg] at hdirty ⊢
          exact hInv.dirtyValid g2 i hi hdirty
    · intro g2 i b hi h1 h2 k hk
      by_cases hiv : g2 = G ∧ i = victim
      · obtain ⟨rfl, rfl⟩ := hiv
        have hb : b = blk := by
          have := h1.symm.trans h6vic.1
          exact Option.some.inj this
        subst hb
        rw [congrFun h6vic.2.2.2 k, h6vic.2.1]
        rw [congrFun (diskBlock_eq_of_disk_eq hs6disk tag
          (desc.version tag) b) k]
      · rw [h6other g2 i hiv] at h1 h2 ⊢
        by_cases hbg : g2 = G
        · rw [if_pos hbg] at h1 h2 ⊢
          have h1s : (s.groups G i).blockNum = some b := by
            rw [← (hpres i).1]
            exact h1
          have h2s : (s.groups G i).dirty = false := by
            rw [← (hpres i).2.2.1]
            exact h2
          have hc := hInv.clean G i b hi h1s h2s k hk
          rw [congrFun (hpres i).2.2.2 k, (hpres i).2.1, hc]
          rw [congrFun (diskBlock_eq_of_disk_eq hs6disk
            ((s.groups G i).tag) (desc.version ((s.groups G i).tag)) b) k]
          rw [hD ((s.groups G i).tag) b k hk]
          rw [if_neg ?_]
          intro hcnd
          have := hInv.uniq G victim i b ((s.groups G i).tag) hvic hi
            hcnd.1 hcnd.2 h1s rfl
          exact hiv ⟨hbg, this.symm⟩
        · rw [if_neg hbg] at h1 h2 ⊢
          have hc := hInv.clean g2 i b hi h1 h2 k hk
          rw [hc]
          rw [congrFun (diskBlock_eq_of_disk_eq hs6disk
            ((s.groups g2 i).tag) (desc.version ((s.groups g2 i).tag)) b) k]
          rw [hD ((s.groups g2 i).tag) b k hk]
          rw [if_neg ?_]
          intro hcnd
          have hbG := hInv.grp G victim b hvic hcnd.1
          have hbg2 := hInv.grp g2 i b hi h1
          exact hbg (hbg2.symm.trans hbG)
  · intro k hk
    rw [congrFun h6vic.2.2.2 k, hDtarget k hk]
    unfold logicalData
    have hrold : residentIdx desc s tag blk = none := by
      unfold residentIdx
      rw [← hG]
      exact hscan
    rw [hrold]


end OBuffers

namespace OBuffers

theorem get_buffer_spec (desc : Desc) (s : State) (hInv : Inv desc s)
    (tag blk : Nat) (w : Bool) :
    GetBufferPost desc s (get_buffer desc s tag blk w).1 tag blk
      (get_buffer desc s tag blk w).2.1 (get_buffer desc s tag blk w).2.2 := by
  unfold get_buffer
  dsimp only
  cases hscan : scanHit (s.groups (blk % desc.groupsCount)) tag blk with
  | some i =>
    dsimp only
    have hsome := scanHit_some hscan
    set s2 := { s with groups := updateSlot s.groups (blk % desc.groupsCount) i { s.groups (blk % desc.groupsCount) i with usageCount := (s.groups (blk % desc.groupsCount) i).usageCount + 1 } } with hs2
    have hfields : ∀ g2 i2,
        (s2.groups g2 i2).blockNum = (s.groups g2 i2).blockNum ∧
        (s2.groups g2 i2).tag = (s.groups g2 i2).tag ∧
        (s2.groups g2 i2).dirty = (s.groups g2 i2).dirty ∧
        (s2.groups g2 i2).data = (s.groups g2 i2).data := by
      intro g2 i2
      rw [hs2]
      by_cases h : g2 = blk % desc.groupsCount ∧ i2 = i
      · obtain ⟨h1, h2⟩ := h
        subst h1
        subst h2
        simp [updateSlot]
      · simp [updateSlot, h]
    have hp := state_pres_spec desc hInv (fun g2 i2 => (hfields g2 i2).1)
      (fun g2 i2 => (hfields g2 i2).2.1)
      (fun g2 i2 => (hfields g2 i2).2.2.1)
      (fun g2 i2 => (hfields g2 i2).2.2.2)
      (by rw [hs2]) (by rw [hs2]; exact hInv.cur)
    unfold GetBufferPost
    refine ⟨hp.1, rfl, hsome.1, ?_, ?_, ?_, ?_, ?_⟩
    · rw [(hfields _ i).1]
      exact hsome.2.1
    · rw [(hfields _ i).2.1]
      exact hsome.2.2
    · intro k hk
      rw [congrFun (hfields _ i).2.2.2 k]
      have hl : logicalData desc s tag blk =
          (s.groups (blk % desc.groupsCount) i).data := by
        unfold logicalData residentIdx
        rw [hscan]
      rw [hl]
    · intro t b k hk
      exact congrFun (hp.2.2 t b) k
    · exact (hp.2.1 tag blk).trans hscan
  | none =>
    dsimp only
    have hvs := victimScanLoop_no_match tag blk
      (List.range O_BUFFERS_PER_GROUP) (s.groups (blk % desc.groupsCount))
      0 0 (fun j hj => scanHit_none hscan j (List.mem_range.mp hj))
    rcases hvsl : victimScanLoop tag blk (List.range O_BUFFERS_PER_GROUP)
      (s.groups (blk % desc.groupsCount)) 0 0 with ⟨fst, victim, grp2⟩
    rw [hvsl] at hvs
    obtain rfl : fst = none := hvs.1
    dsimp only
    have hvic : victim < O_BUFFERS_PER_GROUP := by
      rcases hvs.2.1 with h | h
      · exact List.mem_range.mp h
      · have h0 : victim = 0 := h
        rw [h0]
        decide
    exact get_buffer_miss_post desc s hInv tag blk victim grp2 hscan hvic
      (fun j => hvs.2.2 j)

end OBuffers

namespace OBuffers

/-- Overwriting the cached bytes of a resident slot and marking it dirty
(the write arm of the block loop of `o_buffers_rw`) keeps the invariant,
makes the overwritten block's logical contents the new bytes, and leaves
every other block's logical contents unchanged. -/
theorem overwrite_slot_spec (desc : Desc) (s : State) (hInv : Inv desc s)
    (tag blk i : Nat) (s2 : State) (hi : i < O_BUFFERS_PER_GROUP)
    (hid : (s.groups (blk % desc.groupsCount) i).blockNum = some blk)
    (hit : (s.groups (blk % desc.groupsCount) i).tag = tag)
    (hres : residentIdx desc s tag blk = some i)
    (nd : Nat → Nat)
    (hs2 : s2 = { s with groups := updateSlot s.groups (blk % desc.groupsCount) i { s.groups (blk % desc.groupsCount) i with dirty := true, data := nd } }) :
    Inv desc s2 ∧
    (∀ k, logicalData desc s2 tag blk k = nd k) ∧
    (∀ t b, ¬(t = tag ∧ b = blk) → ∀ k,
      logicalData desc s2 t b k = logicalData desc s t b k) := by
  subst hs2
  have hslot : ∀ g2 i2, ({ s with groups := updateSlot s.groups (blk % desc.groupsCount) i { s.groups (blk % desc.groupsCount) i with dirty := true, data := nd } } : State).groups g2 i2 = if g2 = blk % desc.groupsCount ∧ i2 = i then { s.groups (blk % desc.groupsCount) i with dirty := true, data := nd } else s.groups g2 i2 :=
    fun _ _ => rfl
  have hbt : ∀ g2 i2,
      (({ s with groups := updateSlot s.groups (blk % desc.groupsCount) i { s.groups (blk % desc.groupsCount) i with dirty := true, data := nd } } : State).groups g2 i2).blockNum = (s.groups g2 i2).blockNum ∧
      (({ s with groups := updateSlot s.groups (blk % desc.groupsCount) i { s.groups (blk % desc.groupsCount) i with dirty := true, data := nd } } : State).groups g2 i2).tag = (s.groups g2 i2).tag := by
    intro g2 i2
    rw [hslot]
    by_cases h : g2 = blk % desc.groupsCount ∧ i2 = i
    · rw [if_pos h, h.1, h.2]
      exact ⟨rfl, rfl⟩
    · rw [if_neg h]
      exact ⟨rfl, rfl⟩
  have hresAll : ∀ t b,
      residentIdx desc { s with groups := updateSlot s.groups (blk % desc.groupsCount) i { s.groups (blk % desc.groupsCount) i with dirty := true, data := nd } } t b = residentIdx desc s t b := by
    intro t b
    unfold residentIdx
    exact scanHit_congr t b (fun j _ => ⟨(hbt _ j).1, (hbt _ j).2⟩)
  refine ⟨?_, ?_, ?_⟩
  · refine ⟨?_, ?_, ?_, ?_, hInv.cur⟩
    · intro g i' j' b t hi' hj' h1 h2 h3 h4
      exact hInv.uniq g i' j' b t hi' hj' ((hbt g i').1 ▸ h1)
        ((hbt g i').2 ▸ h2) ((hbt g j').1 ▸ h3) ((hbt g j').2 ▸ h4)
    · intro g i' b hi' h1
      exact hInv.grp g i' b hi' ((hbt g i').1 ▸ h1)
    · intro g2 i2 hi2 hd
      rw [(hbt g2 i2).1]
      by_cases h : g2 = blk % desc.groupsCount ∧ i2 = i
      · rw [h.1, h.2, hid]
        simp
      · apply hInv.dirtyValid g2 i2 hi2
        rw [hslot, if_neg h] at hd
        exact hd
    · intro g2 i2 b hi2 h1 h2 k hk
      rw [hslot] at h1 h2 ⊢
      by_cases h : g2 = blk % desc.groupsCount ∧ i2 = i
      · rw [if_pos h] at h2
        simp at h2
      · rw [if_neg h] at h1 h2 ⊢
        exact hInv.clean g2 i2 b hi2 h1 h2 k hk
  · intro k
    unfold logicalData
    rw [hresAll tag blk, hres]
    dsimp only
    simp [updateSlot]
  · intro t b hne k
    unfold logicalData
    rw [hresAll t b]
    cases hr : residentIdx desc s t b with
    | none =>
      dsimp only
      rfl
    | some j =>
      dsimp only
      have hj := scanHit_some hr
      by_cases hcase : b % desc.groupsCount = blk % desc.groupsCount ∧ j = i
      · exfalso
        obtain ⟨hg2, hj2⟩ := hcase
        rw [hg2, hj2] at hj
        apply hne
        constructor
        · exact hj.2.2.symm.trans hit
        · exact (Option.some.inj (hid.symm.trans hj.2.1)).symm
      · simp [updateSlot, hcase]

end OBuffers

namespace OBuffers

/-- Arithmetic of the block loop of `o_buffers_rw`: for a byte position `p`
of the request `[off, off + n)` falling in block `cur`, the in-block offset
`p % B` lies inside the copy window of block `cur`, and the running caller
offset plus the window displacement is exactly `p - off`. -/
theorem rw_copy_arith (B off n first last cur p : Nat)
    (hB : 0 < B) (hn : 0 < n)
    (hf : first = off / B) (hl : last = (off + n - 1) / B)
    (h1 : first ≤ cur) (h2 : cur ≤ last)
    (hp1 : off ≤ p) (hp2 : p < off + n) (hpc : p / B = cur) :
    (rwCopy B off n first last cur).2 ≤ p % B ∧
    p % B < (rwCopy B off n first last cur).2 + (rwCopy B off n first last cur).1 ∧
    min n (B * cur - off) + (p % B - (rwCopy B off n first last cur).2) = p - off ∧
    p - off < min n (B * (cur + 1) - off) := by
  subst hf
  subst hl
  unfold rwCopy
  have e1 := Nat.div_add_mod off B
  have e2 := Nat.div_add_mod p B
  have e3 := Nat.div_add_mod (off + n - 1) B
  have b1 : off % B < B := Nat.mod_lt _ hB
  have b2 : p % B < B := Nat.mod_lt _ hB
  have b3 : (off + n - 1) % B < B := Nat.mod_lt _ hB
  rw [hpc] at e2
  rw [Nat.mul_succ]
  by_cases c1 : off / B = (off + n - 1) / B
  · rw [if_pos c1]
    have hc : cur = off / B := by omega
    rw [← hc] at e1
    rw [← c1, ← hc] at e3
    dsimp only
    omega
  · rw [if_neg c1]
    by_cases c2 : cur = off / B
    · rw [if_pos c2]
      rw [← c2] at e1
      dsimp only
      omega
    · rw [if_neg c2]
      have hm1 : B * (off / B + 1) ≤ B * cur := Nat.mul_le_mul_left B (by omega)
      rw [Nat.mul_succ] at hm1
      by_cases c3 : cur = (off + n - 1) / B
      · rw [if_pos c3]
        rw [← c3] at e3
        dsimp only
        omega
      · rw [if_neg c3]
        have hm2 : B * (cur + 1) ≤ B * ((off + n - 1) / B) :=
          Nat.mul_le_mul_left B (by omega)
        rw [Nat.mul_succ] at hm2
        dsimp only
        omega

/-- The running caller offset after processing block `cur` equals the offset
the loop invariant prescribes for block `cur + 1`. -/
theorem rw_ptr_arith (B off n first last cur : Nat)
    (hB : 0 < B) (hn : 0 < n)
    (hf : first = off / B) (hl : last = (off + n - 1) / B)
    (h1 : first ≤ cur) (h2 : cur ≤ last) :
    min n (B * cur - off) + (rwCopy B off n first last cur).1 =
      min n (B * (cur + 1) - off) := by
  subst hf
  subst hl
  unfold rwCopy
  have e1 := Nat.div_add_mod off B
  have e3 := Nat.div_add_mod (off + n - 1) B
  have b1 : off % B < B := Nat.mod_lt _ hB
  have b3 : (off + n - 1) % B < B := Nat.mod_lt _ hB
  rw [Nat.mul_succ]
  by_cases c1 : off / B = (off + n - 1) / B
  · rw [if_pos c1]
    have hc1 : off / B ≤ cur := h1
    have hc2 : cur ≤ (off + n - 1) / B := h2
    have hc : cur = off / B := by omega
    rw [← hc] at e1
    rw [← c1, ← hc] at e3
    dsimp only
    omega
  · rw [if_neg c1]
    by_cases c2 : cur = off / B
    · rw [if_pos c2]
      rw [← c2] at e1
      have hm2 : B * (cur + 1) ≤ B * ((off + n - 1) / B) :=
        Nat.mul_le_mul_left B (by omega)
      rw [Nat.mul_succ] at hm2
      dsimp only
      omega
    · rw [if_neg c2]
      have hm1 : B * (off / B + 1) ≤ B * cur := Nat.mul_le_mul_left B (by omega)
      rw [Nat.mul_succ] at hm1
      by_cases c3 : cur = (off + n - 1) / B
      · rw [if_pos c3]
        rw [← c3] at e3
        dsimp only
        omega
      · rw [if_neg c3]
        have hm2 : B * (cur + 1) ≤ B * ((off + n - 1) / B) :=
          Nat.mul_le_mul_left B (by omega)
        rw [Nat.mul_succ] at hm2
        dsimp only
        omega

end OBuffers

namespace OBuffers

/-- The write arm of one iteration of the block loop of `o_buffers_rw`:
the invariant is kept, the caller buffer and running offset advance as the
loop invariant prescribes, the bytes of `[off, off + n)` falling in block
`cur` become the corresponding caller bytes, and every other block of every
tag keeps its logical contents. -/
theorem rwStep_write_post (desc : Desc) (s : State) (hInv : Inv desc s)
    (tag off n first last cur ptr : Nat) (buf : Nat → Nat)
    (hB : 0 < desc.blcksz) (hn : 0 < n)
    (hf : first = off / desc.blcksz) (hl : last = (off + n - 1) / desc.blcksz)
    (h1 : first ≤ cur) (h2 : cur ≤ last)
    (hptr : ptr = min n (desc.blcksz * cur - off)) :
    Inv desc (rwStep desc tag off n true first last cur s buf ptr).1 ∧
    (rwStep desc tag off n true first last cur s buf ptr).2.1 = buf ∧
    (rwStep desc tag off n true first last cur s buf ptr).2.2 =
      min n (desc.blcksz * (cur + 1) - off) ∧
    (∀ p, off ≤ p → p < off + n → p / desc.blcksz = cur →
      logicalData desc (rwStep desc tag off n true first last cur s buf ptr).1
        tag cur (p % desc.blcksz) = buf (p - off)) ∧
    (∀ t b, ¬(t = tag ∧ b = cur) → ∀ k, k < desc.blcksz →
      logicalData desc (rwStep desc tag off n true first last cur s buf ptr).1
        t b k = logicalData desc s t b k) := by
  obtain ⟨hInv1, hg, hi, hid, hit, hdata, hpres, hres⟩ :=
    get_buffer_spec desc s hInv tag cur true
  unfold rwStep
  dsimp only
  rw [hg]
  obtain ⟨hI2, hTarget, hFrame⟩ :=
    overwrite_slot_spec desc (get_buffer desc s tag cur true).1 hInv1 tag cur
      (get_buffer desc s tag cur true).2.2 _ hi hid hit hres
      (fun k =>
        if (rwCopy desc.blcksz off n first last cur).2 ≤ k ∧
            k < (rwCopy desc.blcksz off n first last cur).2 +
              (rwCopy desc.blcksz off n first last cur).1 then
          buf (ptr + (k - (rwCopy desc.blcksz off n first last cur).2))
        else ((get_buffer desc s tag cur true).1.groups
          (cur % desc.groupsCount) (get_buffer desc s tag cur true).2.2).data k)
      rfl
  refine ⟨hI2, rfl, ?_, ?_, ?_⟩
  · rw [hptr]
    exact rw_ptr_arith desc.blcksz off n first last cur hB hn hf hl h1 h2
  · intro p hp1 hp2 hpc
    obtain ⟨ha1, ha2, ha3, ha4⟩ :=
      rw_copy_arith desc.blcksz off n first last cur p hB hn hf hl h1 h2 hp1 hp2 hpc
    rw [hTarget (p % desc.blcksz)]
    rw [if_pos ⟨ha1, ha2⟩]
    rw [hptr]
    exact congrArg buf ha3
  · intro t b hne k hk
    exact (hFrame t b hne k).trans (hpres t b k hk)

/-- The read arm of one iteration of the block loop of `o_buffers_rw`:
the state keeps its invariant and all logical contents, the bytes of
`[off, off + n)` falling in block `cur` are copied from the block's logical
contents into the caller buffer at their request-relative positions (all
below the new running offset), and caller bytes below the old running offset
are untouched. -/
theorem rwStep_read_post (desc : Desc) (s : State) (hInv : Inv desc s)
    (tag off n first last cur ptr : Nat) (buf : Nat → Nat)
    (hB : 0 < desc.blcksz) (hn : 0 < n)
    (hf : first = off / desc.blcksz) (hl : last = (off + n - 1) / desc.blcksz)
    (h1 : first ≤ cur) (h2 : cur ≤ last)
    (hptr : ptr = min n (desc.blcksz * cur - off)) :
    Inv desc (rwStep desc tag off n false first last cur s buf ptr).1 ∧
    (rwStep desc tag off n false first last cur s buf ptr).2.2 =
      min n (desc.blcksz * (cur + 1) - off) ∧
    (∀ t b k, k < desc.blcksz →
      logicalData desc (rwStep desc tag off n false first last cur s buf ptr).1
        t b k = logicalData desc s t b k) ∧
    (∀ p, off ≤ p → p < off + n → p / desc.blcksz = cur →
      (rwStep desc tag off n false first last cur s buf ptr).2.1 (p - off) =
        logicalData desc s tag cur (p % desc.blcksz) ∧
      p - off < (rwStep desc tag off n false first last cur s buf ptr).2.2) ∧
    (∀ j, j < ptr →
      (rwStep desc tag off n false first last cur s buf ptr).2.1 j = buf j) := by
  obtain ⟨hInv1, hg, hi, hid, hit, hdata, hpres, hres⟩ :=
    get_buffer_spec desc s hInv tag cur false
  unfold rwStep
  dsimp only
  rw [hg]
  refine ⟨hInv1, ?_, ?_, ?_, ?_⟩
  · rw [hptr]
    exact rw_ptr_arith desc.blcksz off n first last cur hB hn hf hl h1 h2
  · intro t b k hk
    exact hpres t b k hk
  · intro p hp1 hp2 hpc
    obtain ⟨ha1, ha2, ha3, ha4⟩ :=
      rw_copy_arith desc.blcksz off n first last cur p hB hn hf hl h1 h2 hp1 hp2 hpc
    have hc1 : ptr ≤ p - off ∧
        p - off < ptr + (rwCopy desc.blcksz off n first last cur).1 := by
      rw [hptr]
      omega
    constructor
    · rw [if_pos hc1]
      have hidx : (rwCopy desc.blcksz off n first last cur).2 + (p - off - ptr) =
          p % desc.blcksz := by
        rw [hptr]
        omega
      rw [hidx]
      exact hdata (p % desc.blcksz) (Nat.mod_lt _ hB)
    · exact hc1.2
  · intro j hj
    rw [if_neg (by omega)]

end OBuffers

namespace OBuffers

/-- The block loop of `o_buffers_rw` in write mode: starting from block
`cur` with `cnt` blocks left and caller bytes for the blocks below `cur`
already applied, it finishes with the invariant intact, the caller buffer
untouched, and every byte of `[off, off + n)` logically equal to the
corresponding caller byte. -/
theorem rwBlocks_write_spec (desc : Desc) (tag off n first last : Nat)
    (hB : 0 < desc.blcksz) (hn : 0 < n)
    (hf : first = off / desc.blcksz) (hl : last = (off + n - 1) / desc.blcksz) :
    ∀ (cnt cur : Nat) (s : State) (buf : Nat → Nat) (ptr : Nat),
    Inv desc s → first ≤ cur → cur + cnt = last + 1 →
    ptr = min n (desc.blcksz * cur - off) →
    (∀ j, j < n → (off + j) / desc.blcksz < cur →
      logicalData desc s tag ((off + j) / desc.blcksz) ((off + j) % desc.blcksz) = buf j) →
    Inv desc (rwBlocks desc tag off n true first last cur cnt s buf ptr).1 ∧
    (rwBlocks desc tag off n true first last cur cnt s buf ptr).2 = buf ∧
    (∀ j, j < n →
      logicalData desc (rwBlocks desc tag off n true first last cur cnt s buf ptr).1
        tag ((off + j) / desc.blcksz) ((off + j) % desc.blcksz) = buf j) := by
  intro cnt
  induction cnt with
  | zero =>
    intro cur s buf ptr hInv hc1 hc2 hptr H
    refine ⟨hInv, rfl, ?_⟩
    intro j hj
    apply H j hj
    have hle : (off + j) / desc.blcksz ≤ last := by
      rw [hl]
      exact Nat.div_le_div_right (by omega)
    omega
  | succ cnt ih =>
    intro cur s buf ptr hInv hc1 hc2 hptr H
    have hcur2 : cur ≤ last := by omega
    obtain ⟨hI1, hbuf, hptr2, htgt, hfr⟩ :=
      rwStep_write_post desc s hInv tag off n first last cur ptr buf
        hB hn hf hl hc1 hcur2 hptr
    have H2 : ∀ j, j < n → (off + j) / desc.blcksz < cur + 1 →
        logicalData desc (rwStep desc tag off n true first last cur s buf ptr).1
          tag ((off + j) / desc.blcksz) ((off + j) % desc.blcksz) =
          (rwStep desc tag off n true first last cur s buf ptr).2.1 j := by
      intro j hj hlt
      rw [hbuf]
      by_cases hb : (off + j) / desc.blcksz = cur
      · rw [hb]
        have hx := htgt (off + j) (by omega) (by omega) hb
        rw [show off + j - off = j from by omega] at hx
        exact hx
      · have hne : ¬(tag = tag ∧ (off + j) / desc.blcksz = cur) :=
          fun hcon => hb hcon.2
        rw [hfr tag ((off + j) / desc.blcksz) hne ((off + j) % desc.blcksz)
          (Nat.mod_lt _ hB)]
        exact H j hj (by omega)
    have hrec := ih (cur + 1)
      (rwStep desc tag off n true first last cur s buf ptr).1
      (rwStep desc tag off n true first last cur s buf ptr).2.1
      (rwStep desc tag off n true first last cur s buf ptr).2.2
      hI1 (by omega) (by omega) hptr2 H2
    rw [show rwBlocks desc tag off n true first last cur (cnt + 1) s buf ptr =
      rwBlocks desc tag off n true first last (cur + 1) cnt
        (rwStep desc tag off n true first last cur s buf ptr).1
        (rwStep desc tag off n true first last cur s buf ptr).2.1
        (rwStep desc tag off n true first last cur s buf ptr).2.2 from rfl]
    refine ⟨hrec.1, hrec.2.1.trans hbuf, ?_⟩
    intro j hj
    rw [hrec.2.2 j hj]
    rw [hbuf]

/-- The block loop of `o_buffers_rw` in read mode: starting from block `cur`
with `cnt` blocks left, it finishes with the invariant and all logical
contents intact, the caller bytes of the remaining blocks set to those
blocks' logical contents, and the caller bytes below the running offset
untouched. -/
theorem rwBlocks_read_spec (desc : Desc) (tag off n first last : Nat)
    (hB : 0 < desc.blcksz) (hn : 0 < n)
    (hf : first = off / desc.blcksz) (hl : last = (off + n - 1) / desc.blcksz) :
    ∀ (cnt cur : Nat) (s : State) (buf : Nat → Nat) (ptr : Nat),
    Inv desc s → first ≤ cur → cur + cnt = last + 1 →
    ptr = min n (desc.blcksz * cur - off) →
    Inv desc (rwBlocks desc tag off n false first last cur cnt s buf ptr).1 ∧
    (∀ t b k, k < desc.blcksz →
      logicalData desc (rwBlocks desc tag off n false first last cur cnt s buf ptr).1
        t b k = logicalData desc s t b k) ∧
    (∀ j, j < n → cur ≤ (off + j) / desc.blcksz →
      (rwBlocks desc tag off n false first last cur cnt s buf ptr).2 j =
        logicalData desc s tag ((off + j) / desc.blcksz) ((off + j) % desc.blcksz)) ∧
    (∀ j, j < ptr →
      (rwBlocks desc tag off n false first last cur cnt s buf ptr).2 j = buf j) := by
  intro cnt
  induction cnt with
  | zero =>
    intro cur s buf ptr hInv hc1 hc2 hptr
    refine ⟨hInv, fun t b k hk => rfl, ?_, fun j hj => rfl⟩
    intro j hj hge
    exfalso
    have hle : (off + j) / desc.blcksz ≤ last := by
      rw [hl]
      exact Nat.div_le_div_right (by omega)
    omega
  | succ cnt ih =>
    intro cur s buf ptr hInv hc1 hc2 hptr
    have hcur2 : cur ≤ last := by omega
    obtain ⟨hI1, hptr2, hpres, htgt, hfr⟩ :=
      rwStep_read_post desc s hInv tag off n first last cur ptr buf
        hB hn hf hl hc1 hcur2 hptr
    have hmono : ptr ≤ (rwStep desc tag off n false first last cur s buf ptr).2.2 := by
      rw [hptr2, hptr]
      have hmul : desc.blcksz * cur ≤ desc.blcksz * (cur + 1) :=
        Nat.mul_le_mul_left _ (by omega)
      omega
    obtain ⟨ihI, ihpres, ihtgt, ihfr⟩ := ih (cur + 1)
      (rwStep desc tag off n false first last cur s buf ptr).1
      (rwStep desc tag off n false first last cur s buf ptr).2.1
      (rwStep desc tag off n false first last cur s buf ptr).2.2
      hI1 (by omega) (by omega) hptr2
    rw [show rwBlocks desc tag off n false first last cur (cnt + 1) s buf ptr =
      rwBlocks desc tag off n false first last (cur + 1) cnt
        (rwStep desc tag off n false first last cur s buf ptr).1
        (rwStep desc tag off n false first last cur s buf ptr).2.1
        (rwStep desc tag off n false first last cur s buf ptr).2.2 from rfl]
    refine ⟨ihI, ?_, ?_, ?_⟩
    · intro t b k hk
      exact (ihpres t b k hk).trans (hpres t b k hk)
    · intro j hj hge
      by_cases hb : (off + j) / desc.blcksz = cur
      · have hstep := htgt (off + j) (by omega) (by omega) hb
        have hjeq : off + j - off = j := by omega
        rw [hjeq] at hstep
        rw [ihfr j hstep.2, hstep.1, hb]
      · have hgt : cur + 1 ≤ (off + j) / desc.blcksz := by omega
        rw [ihtgt j hj hgt]
        exact hpres tag ((off + j) / desc.blcksz) ((off + j) % desc.blcksz)
          (Nat.mod_lt _ hB)
    · intro j hj
      rw [ihfr j (lt_of_lt_of_le hj hmono)]
      exact hfr j hj

end OBuffers

namespace OBuffers

/-- Buffer-cache geometry used for concrete evaluation: 4-byte blocks,
8-byte files (so two blocks per on-disk file), two slot groups, all tags at
format version 0 with no transform callback. -/
def descW : Desc :=
  { blcksz := 4, singleFileSize := 8, groupsCount := 2,
    version := fun _ => 0, transform := fun _ => none }

/-- Freshly initialized buffer cache: all slots empty, nothing on disk. -/
def stateW : State :=
  { groups := fun _ _ => emptyBuffer, disk := fun _ _ _ => none,
    extant := fun _ _ _ => false, unlinkLog := [], curFileValid := false,
    curFileTag := 0, curFileNum := 0, curFileVersion := 0 }

/-- Source bytes for the concrete read-after-write run. -/
def srcW : Nat → Nat := fun j => 10 + j

theorem invW : Inv descW stateW := by
  refine ⟨?_, ?_, ?_, ?_, ?_⟩
  · intro g i j b t hi hj h1 h2 h3 h4
    simp [stateW, emptyBuffer] at h1
  · intro g i b hi h1
    simp [stateW, emptyBuffer] at h1
  · intro g i hi h1
    simp [stateW, emptyBuffer] at h1
  · intro g i b hi h1 h2 k hk
    simp [stateW, emptyBuffer] at h1
  · intro h
    simp [stateW] at h

end OBuffers

namespace OBuffers

/-- C1: for every buffer-cache state satisfying the single-worker invariant,
every tag, every offset and every size `n > 0`, `o_buffers_write(desc, src,
tag, off, n)` followed by `o_buffers_read(desc, dst, tag, off, n)` leaves
`dst[0..n)` equal to `src[0..n)`, including when the range spans multiple
blocks and multiple on-disk files. -/
theorem c1_read_after_write (desc : Desc) (s : State) (hInv : Inv desc s)
    (src dst : Nat → Nat) (tag off n : Nat)
    (hB : 0 < desc.blcksz) (hn : 0 < n) :
    ∀ j, j < n →
      (o_buffers_read desc (o_buffers_write desc s src tag off n).1
        dst tag off n).2 j = src j := by
  intro j hj
  have hfl : off / desc.blcksz ≤ (off + n - 1) / desc.blcksz :=
    Nat.div_le_div_right (by omega)
  have hptr0 : (0 : Nat) = min n (desc.blcksz * (off / desc.blcksz) - off) := by
    have hml := Nat.div_mul_le_self off desc.blcksz
    rw [Nat.mul_comm] at hml
    omega
  have H0 : ∀ j2, j2 < n → (off + j2) / desc.blcksz < off / desc.blcksz →
      logicalData desc s tag ((off + j2) / desc.blcksz)
        ((off + j2) % desc.blcksz) = src j2 := by
    intro j2 hj2 hlt
    exfalso
    have hge : off / desc.blcksz ≤ (off + j2) / desc.blcksz :=
      Nat.div_le_div_right (by omega)
    omega
  obtain ⟨hIw, hbufw, htgtw⟩ :=
    rwBlocks_write_spec desc tag off n (off / desc.blcksz)
      ((off + n - 1) / desc.blcksz) hB hn rfl rfl
      ((off + n - 1) / desc.blcksz + 1 - off / desc.blcksz)
      (off / desc.blcksz) s src 0 hInv (le_refl _) (by omega) hptr0 H0
  obtain ⟨hIr, hpresr, htgtr, hfrr⟩ :=
    rwBlocks_read_spec desc tag off n (off / desc.blcksz)
      ((off + n - 1) / desc.blcksz) hB hn rfl rfl
      ((off + n - 1) / desc.blcksz + 1 - off / desc.blcksz)
      (off / desc.blcksz)
      (rwBlocks desc tag off n true (off / desc.blcksz)
        ((off + n - 1) / desc.blcksz) (off / desc.blcksz)
        ((off + n - 1) / desc.blcksz + 1 - off / desc.blcksz) s src 0).1
      dst 0 hIw (le_refl _) (by omega) hptr0
  show (rwBlocks desc tag off n false (off / desc.blcksz)
      ((off + n - 1) / desc.blcksz) (off / desc.blcksz)
      ((off + n - 1) / desc.blcksz + 1 - off / desc.blcksz)
      (rwBlocks desc tag off n true (off / desc.blcksz)
        ((off + n - 1) / desc.blcksz) (off / desc.blcksz)
        ((off + n - 1) / desc.blcksz + 1 - off / desc.blcksz) s src 0).1
      dst 0).2 j = src j
  rw [htgtr j hj (Nat.div_le_div_right (by omega))]
  exact htgtw j hj

/-- C1, witness: on a fresh two-group cache with 4-byte blocks and two
blocks per file, writing bytes 10..15 of tag 1 at offset 3 (spanning blocks
0, 1 and 2, hence two on-disk files) and reading the range back returns the
written bytes; the last byte also evaluates concretely to 15. -/
theorem c1_read_after_write_witness :
    Inv descW stateW ∧ 0 < descW.blcksz ∧ 0 < 6 ∧
    (∀ j, j < 6 →
      (o_buffers_read descW (o_buffers_write descW stateW srcW 1 3 6).1
        (fun _ => 0) 1 3 6).2 j = srcW j) ∧
    (o_buffers_read descW (o_buffers_write descW stateW srcW 1 3 6).1
      (fun _ => 0) 1 3 6).2 5 = 15 :=
  ⟨invW, by decide, by decide,
   fun j hj => c1_read_after_write descW stateW invW srcW (fun _ => 0) 1 3 6
     (by decide) (by decide) j hj,
   by rfl⟩

end OBuffers

namespace TupleFormat

/-- `MAXALIGN(sizeof(OTupleHeaderData))`: the header is 8 bytes
(`uint16 + uint16 + uint32`) and MAXALIGN is 8-byte alignment. -/
def SizeOfOTupleHeader : Nat := 8

/-- One attribute of a tuple descriptor as consulted by `o_fastgetattr`:
`attcacheoff` is a C `int` with `-1` for "not cached", modelled as an
`Option Nat` (`some off` exactly when `attcacheoff >= 0`). -/
structure TupleAttr where
  attcacheoff : Option Nat

/-- `OTupleFixedFormatSpec` of include/tuple/format.h. -/
structure OTupleFixedFormatSpec where
  natts : Nat
  len : Nat

/-- The parts of an `OTuple` that `o_fastgetattr` reads: the fixed-format
flag of `formatFlags`, the header's `hasnulls` bit, the null bitmap
(`att_isnull(attnum - 1, ...)`) and the data bytes, the latter abstracted to
a word read at a byte offset (`fetchatt`). -/
structure OTupleM where
  fixedFormat : Bool
  hasnulls : Bool
  isnullBit : Nat → Bool
  data : Nat → Nat

/-- `o_fastgetattr` of include/tuple/format.h, returning the pair
`(datum, *isnull)`; `*isnull` is initialized to `false` on entry.
`nocache` stands for `o_toast_nocachegetattr` (not part of this
repository's sources), which receives the tuple and may set `*isnull`. -/
def o_fastgetattr
    (nocache : OTupleM → Nat → (Nat → TupleAttr) → OTupleFixedFormatSpec →
      Nat × Bool)
    (tup : OTupleM) (attnum : Nat) (tupleDesc : Nat → TupleAttr)
    (spec : OTupleFixedFormatSpec) : Nat × Bool :=
  if tup.fixedFormat then
    if attnum - 1 < spec.natts then
      match (tupleDesc (attnum - 1)).attcacheoff with
      | some off => (tup.data off, false)
      | none => nocache tup attnum tupleDesc spec
    else (0, true)
  else
    if tup.hasnulls = false then
      match (tupleDesc (attnum - 1)).attcacheoff with
      | some off => (tup.data (SizeOfOTupleHeader + off), false)
      | none => nocache tup attnum tupleDesc spec
    else
      if tup.isnullBit (attnum - 1) then (0, true)
      else nocache tup attnum tupleDesc spec

end TupleFormat

namespace TupleFormat

/-- C10: on a fixed-format tuple, `o_fastgetattr` with `attnum - 1 >=
spec->natts` returns `(Datum) NULL` with `*isnull = true` without touching
the tuple data, and with `attnum - 1 < spec->natts` it never reports null
(given that `o_toast_nocachegetattr`, outside this repository, does not
report null for an in-range attribute of a fixed-format tuple). -/
theorem c10_fixed_format_out_of_range
    (nocache : OTupleM → Nat → (Nat → TupleAttr) → OTupleFixedFormatSpec →
      Nat × Bool)
    (tup : OTupleM) (attnum : Nat) (tupleDesc : Nat → TupleAttr)
    (spec : OTupleFixedFormatSpec)
    (hfixed : tup.fixedFormat = true) (hpos : 0 < attnum)
    (hnc : ∀ tp an, tp.fixedFormat = true → 0 < an → an - 1 < spec.natts →
      (nocache tp an tupleDesc spec).2 = false) :
    (spec.natts ≤ attnum - 1 →
      o_fastgetattr nocache tup attnum tupleDesc spec = (0, true)) ∧
    (attnum - 1 < spec.natts →
      (o_fastgetattr nocache tup attnum tupleDesc spec).2 = false) := by
  constructor
  · intro hout
    unfold o_fastgetattr
    rw [if_pos hfixed, if_neg (by omega)]
  · intro hin
    unfold o_fastgetattr
    rw [if_pos hfixed, if_pos hin]
    cases hoff : (tupleDesc (attnum - 1)).attcacheoff with
    | some off => rfl
    | none => exact hnc tup attnum hfixed hpos hin

/-- C10, witness: a fixed-format tuple with a 2-attribute spec, evaluated
out of range (attnum 3) and in range (attnum 1). -/
theorem c10_fixed_format_out_of_range_witness :
    ((2 : Nat) ≤ 3 - 1 →
      o_fastgetattr (fun _ _ _ _ => (42, false))
        { fixedFormat := true, hasnulls := false, isnullBit := fun _ => false,
          data := fun k => 100 + k } 3 (fun _ => { attcacheoff := some 0 })
        { natts := 2, len := 8 } = (0, true)) ∧
    ((1 : Nat) - 1 < 2 →
      (o_fastgetattr (fun _ _ _ _ => (42, false))
        { fixedFormat := true, hasnulls := false, isnullBit := fun _ => false,
          data := fun k => 100 + k } 1 (fun _ => { attcacheoff := some 0 })
        { natts := 2, len := 8 }).2 = false) := by
  refine ⟨?_, ?_⟩
  · exact (c10_fixed_format_out_of_range (fun _ _ _ _ => (42, false))
      { fixedFormat := true, hasnulls := false, isnullBit := fun _ => false,
        data := fun k => 100 + k } 3 (fun _ => { attcacheoff := some 0 })
      { natts := 2, len := 8 } rfl (by decide) (fun _ _ _ _ _ => rfl)).1
  · exact (c10_fixed_format_out_of_range (fun _ _ _ _ => (42, false))
      { fixedFormat := true, hasnulls := false, isnullBit := fun _ => false,
        data := fun k => 100 + k } 1 (fun _ => { attcacheoff := some 0 })
      { natts := 2, len := 8 } rfl (by decide) (fun _ _ _ _ _ => rfl)).2

end TupleFormat

namespace FastpathEnable

/-- `FASTPATH_FIND_DOWNLINK_MAX_KEYS` of include/btree/fastpath.h. -/
def FASTPATH_FIND_DOWNLINK_MAX_KEYS : Nat := 4

/-- `InvalidOid`. -/
def InvalidOid : Nat := 0

/-- Type oids consulted by `arraySearchDescs` (values as in PostgreSQL's
catalogs; only their identities matter to the verified logic). -/
def OIDOID : Nat := 26
def INT4OID : Nat := 23
def INT8OID : Nat := 20
def FLOAT4OID : Nat := 700
def FLOAT8OID : Nat := 701
def TIDOID : Nat := 27
def OID_BTREE_OPS_OID : Nat := 1981
def INT4_BTREE_OPS_OID : Nat := 1978
def INT8_BTREE_OPS_OID : Nat := 3124
def FLOAT8_BTREE_OPS_OID : Nat := 3123

/-- One entry of `arraySearchDescs` (src/btree/fastpath.c); the search
function pointer is identified by `typeid` and omitted. -/
structure SearchDesc where
  typeid : Nat
  opcid : Nat
  typlen : Nat
  align : Nat
deriving DecidableEq

/-- The `arraySearchDescs` table of src/btree/fastpath.c. -/
def arraySearchDescs : List SearchDesc :=
  [{ typeid := OIDOID, opcid := OID_BTREE_OPS_OID, typlen := 4, align := 4 },
   { typeid := INT4OID, opcid := INT4_BTREE_OPS_OID, typlen := 4, align := 4 },
   { typeid := INT8OID, opcid := INT8_BTREE_OPS_OID, typlen := 8, align := 8 },
   { typeid := FLOAT4OID, opcid := InvalidOid, typlen := 4, align := 4 },
   { typeid := FLOAT8OID, opcid := FLOAT8_BTREE_OPS_OID, typlen := 8, align := 8 },
   { typeid := TIDOID, opcid := InvalidOid, typlen := 6, align := 2 }]

/-- `find_array_search_desc_by_typeid` of src/btree/fastpath.c: linear scan
of the table; an entry whose opclass is still `InvalidOid` is resolved
through `GetDefaultOpClass` (a catalog lookup outside this file, passed in
as `defaultOpc`). -/
def find_array_search_desc_by_typeid (defaultOpc : Nat → Nat) (t : Nat) :
    Option SearchDesc :=
  match arraySearchDescs.find? (fun d => decide (d.typeid = t)) with
  | some d =>
    some (if d.opcid = InvalidOid then { d with opcid := defaultOpc d.typeid }
      else d)
  | none => none

/-- `OIndexType` values distinguished by `can_fastpath_find_downlink`. -/
inductive OIndexType where
  | oIndexToast
  | oIndexBridge
  | oIndexPrimary
  | oIndexRegular
deriving DecidableEq

/-- `BTreeKeyType` values distinguished by the fast-path routines. -/
inductive BTreeKeyType where
  | none
  | rightmost
  | bound
  | uniqueLowerBound
  | uniqueUpperBound
  | leafTuple
  | nonLeafKey
  | pageHiKey
deriving DecidableEq

/-- The fields of `OIndexDescr` read by `can_fastpath_find_downlink`. -/
structure OIndexDescr where
  tupdescNatts : Nat
  atttypid : Nat → Nat
  specNatts : Nat
  specLen : Nat
  nUniqueFields : Nat
  nKeyFields : Nat
  idxType : OIndexType
  opclass : Nat → Nat

/-- The `meta->numKeys` computation of `can_fastpath_find_downlink`. -/
def numKeysOf (id : OIndexDescr) (keyType : BTreeKeyType) : Nat :=
  if keyType = .uniqueLowerBound ∨ keyType = .uniqueUpperBound then
    id.nUniqueFields
  else if id.idxType ≠ .oIndexToast ∧ id.idxType ≠ .oIndexBridge then
    id.nKeyFields
  else id.specNatts

/-- `can_fastpath_find_downlink` of src/btree/fastpath.c, reduced to the
`meta->enabled` flag it computes.  `isFetch` is
`BTREE_PAGE_FIND_IS(context, FETCH)`, `isSysTree` is
`IS_SYS_TREE_OIDS(desc->oids)`, and `getKeysOk` stands for the result of
`find_downlink_get_keys` (the key-decomposition collaborator). -/
def can_fastpath_find_downlink (defaultOpc : Nat → Nat)
    (isFetch isSysTree : Bool) (id : OIndexDescr) (keyType : BTreeKeyType)
    (getKeysOk : Bool) : Bool :=
  if isFetch = false ∨ isSysTree = true then false
  else if FASTPATH_FIND_DOWNLINK_MAX_KEYS ≤ id.tupdescNatts ∨
      id.specNatts ≠ id.tupdescNatts then false
  else if (List.range (numKeysOf id keyType)).all (fun i =>
      match find_array_search_desc_by_typeid defaultOpc (id.atttypid 0) with
      | Option.none => false
      | Option.some d => decide (d.opcid = id.opclass i)) then
    getKeysOk
  else false

/-- The enabling condition as claim C3 words it: FETCH on a non-system
tree, at MOST `FASTPATH_FIND_DOWNLINK_MAX_KEYS` attributes (so exactly 4
still enables), pure fixed format, and EVERY attribute's own type resolving
to a supported descriptor whose opclass matches that attribute's opclass,
plus successful key decomposition. -/
def canFastpathClaim (defaultOpc : Nat → Nat) (isFetch isSysTree : Bool)
    (id : OIndexDescr) (keyType : BTreeKeyType) (getKeysOk : Bool) : Bool :=
  isFetch && !isSysTree &&
  decide (id.tupdescNatts ≤ FASTPATH_FIND_DOWNLINK_MAX_KEYS) &&
  decide (id.specNatts = id.tupdescNatts) &&
  (List.range (numKeysOf id keyType)).all (fun i =>
    match find_array_search_desc_by_typeid defaultOpc (id.atttypid i) with
    | Option.none => false
    | Option.some d => decide (d.opcid = id.opclass i)) &&
  getKeysOk

/-- A 4-key all-INT4 FETCH configuration on a regular index. -/
def idFour : OIndexDescr :=
  { tupdescNatts := 4, atttypid := fun _ => INT4OID, specNatts := 4,
    specLen := 16, nUniqueFields := 4, nKeyFields := 4,
    idxType := .oIndexRegular, opclass := fun _ => INT4_BTREE_OPS_OID }

end FastpathEnable

namespace FastpathEnable

theorem matchDesc_eq_true_iff (o : Option SearchDesc) (c : Nat) :
    (match o with
      | Option.none => false
      | Option.some d => decide (d.opcid = c)) = true ↔
      ∃ d, o = Option.some d ∧ d.opcid = c := by
  cases o with
  | none => simp
  | some d => simp

/--
C3, counterexample: an index with exactly 4 fixed-width INT4 key columns,
FETCH search on a non-system tree, matching opclasses and successful key
decomposition.  The claim (`at most 4 attributes`, `exactly 4 ... enables`)
predicts `enabled`; the code tests `natts >= FASTPATH_FIND_DOWNLINK_MAX_KEYS`
and disables.
-/
theorem c3_four_columns_counterexample :
    canFastpathClaim (fun _ => 0) true false idFour .bound true = true ∧
    can_fastpath_find_downlink (fun _ => 0) true false idFour .bound true =
      false := by
  constructor
  · rfl
  · rfl

/-- C3: amended characterization of `meta->enabled` — the fast path is
enabled iff the search is a FETCH on a non-system tree, the non-leaf tuple
descriptor has STRICTLY FEWER than `FASTPATH_FIND_DOWNLINK_MAX_KEYS = 4`
attributes (exactly 4 disables), `nonLeafSpec.natts` equals the
descriptor's natts, for every key position the descriptor looked up for THE
FIRST attribute's type (attrs[0], not attribute i) exists and its opclass
matches that key position's opclass, and key decomposition succeeds. -/
theorem c3_enable_amended (defaultOpc : Nat → Nat) (isFetch isSysTree : Bool)
    (id : OIndexDescr) (keyType : BTreeKeyType) (getKeysOk : Bool) :
    can_fastpath_find_downlink defaultOpc isFetch isSysTree id keyType
      getKeysOk = true ↔
      (isFetch = true ∧ isSysTree = false ∧
       id.tupdescNatts < FASTPATH_FIND_DOWNLINK_MAX_KEYS ∧
       id.specNatts = id.tupdescNatts ∧
       (∀ i, i < numKeysOf id keyType →
         ∃ d, find_array_search_desc_by_typeid defaultOpc (id.atttypid 0) =
             Option.some d ∧ d.opcid = id.opclass i) ∧
       getKeysOk = true) := by
  unfold can_fastpath_find_downlink
  by_cases h1 : isFetch = false ∨ isSysTree = true
  · rw [if_pos h1]
    constructor
    · intro hc
      exact absurd hc (by decide)
    · rintro ⟨hf, hs, -⟩
      rcases h1 with h | h
      · rw [h] at hf
        exact absurd hf (by decide)
      · rw [h] at hs
        exact absurd hs (by decide)
  · rw [if_neg h1]
    push_neg at h1
    by_cases h2 : FASTPATH_FIND_DOWNLINK_MAX_KEYS ≤ id.tupdescNatts ∨
        id.specNatts ≠ id.tupdescNatts
    · rw [if_pos h2]
      constructor
      · intro hc
        exact absurd hc (by decide)
      · rintro ⟨-, -, hlt, heq, -⟩
        rcases h2 with h | h
        · omega
        · exact (h heq).elim
    · rw [if_neg h2]
      push_neg at h2
      by_cases h3 : (List.range (numKeysOf id keyType)).all (fun i =>
          match find_array_search_desc_by_typeid defaultOpc (id.atttypid 0) with
          | Option.none => false
          | Option.some d => decide (d.opcid = id.opclass i)) = true
      · rw [if_pos h3]
        rw [List.all_eq_true] at h3
        constructor
        · intro hg
          refine ⟨Bool.not_eq_false isFetch ▸ h1.1, Bool.not_eq_true isSysTree ▸ h1.2, by omega, h2.2, ?_, hg⟩
          intro i hi
          have := h3 i (List.mem_range.mpr hi)
          exact (matchDesc_eq_true_iff _ _).mp this
        · rintro ⟨-, -, -, -, -, hg⟩
          exact hg
      · rw [if_neg h3]
        constructor
        · intro hc
          exact absurd hc (by decide)
        · rintro ⟨-, -, -, -, hall, -⟩
          exfalso
          apply h3
          rw [List.all_eq_true]
          intro i hi
          exact (matchDesc_eq_true_iff _ _).mpr (hall i (List.mem_range.mp hi))

end FastpathEnable

namespace TupleSort

/-- The `SortSupport` fields `comparetup_orioledb_index` consumes:
nulls-first placement, the comparator proper, and whether an abbreviated-key
converter is installed (`tuplesort_begin_orioledb_index` never installs one,
see its `FIXME: no abbrev converter yet`). -/
structure SortSupport where
  ssup_attno : Nat
  nullsFirst : Bool
  cmp : Nat → Nat → Int
  abbrevConverter : Bool

/-- PostgreSQL's `ApplySortComparator` null-handling wrapper: nulls compare
equal to each other and sort before or after all values per
`ssup_nulls_first`; the datum comparator runs only on two non-nulls.
(`ApplySortAbbrevFullComparator` has the same shape with the full
comparator, which is how it is used here.) -/
def applySortComparator (d1 : Nat) (n1 : Bool) (d2 : Nat) (n2 : Bool)
    (k : SortSupport) : Int :=
  if n1 then (if n2 then 0 else if k.nullsFirst then -1 else 1)
  else if n2 then (if k.nullsFirst then 1 else -1)
  else k.cmp d1 d2

/-- A `SortTuple` paired with its tuple bytes, abstracted to the attribute
reads `comparetup_orioledb_index` performs: `datum1`/`isnull1` are the
cached leading key, and `attrs a` is the `(datum, isnull)` pair produced by
`o_fastgetattr(tuple, a, tupDesc, spec, &isnull)`. -/
structure STuple where
  datum1 : Nat
  isnull1 : Bool
  attrs : Nat → Nat × Bool

/-- The sort configuration assembled by `tuplesort_begin_orioledb_index`:
key count, per-key sort support, ignored columns (`OIgnoreColumn`), the
uniqueness-enforcement flag and the index name used in the error. -/
structure SortCfg where
  nKeys : Nat
  sortKeys : Nat → SortSupport
  ignoreColumn : Nat → Bool
  enforceUnique : Bool
  indexName : String

/-- Column accessors of the comparator loop: attribute number, fetched
datum and null flag of sort key `nk`. -/
def colAttno (cfg : SortCfg) (nk : Nat) : Nat := (cfg.sortKeys nk).ssup_attno

def colDatum (cfg : SortCfg) (a : STuple) (nk : Nat) : Nat :=
  (a.attrs (colAttno cfg nk)).1

def colNull (cfg : SortCfg) (a : STuple) (nk : Nat) : Bool :=
  (a.attrs (colAttno cfg nk)).2

/-- One comparison of the additional-keys loop. -/
def colCmp (cfg : SortCfg) (a b : STuple) (nk : Nat) : Int :=
  applySortComparator (colDatum cfg a nk) (colNull cfg a nk)
    (colDatum cfg b nk) (colNull cfg b nk) (cfg.sortKeys nk)

/-- The `for (nkey = 1; nkey < base->nKeys; nkey++)` loop of
`comparetup_orioledb_index` (src/tuple/sort.c): skip ignored columns,
return the first nonzero comparison, and accumulate `equal_hasnull` from
the LEFT tuple's null flag of every compared column; `cnt` is the number of
iterations left. -/
def compareLoop (cfg : SortCfg) (a b : STuple) :
    Nat → Nat → Bool → Int ⊕ Bool
  | _, 0, eh => Sum.inr eh
  | nk, cnt + 1, eh =>
    if cfg.ignoreColumn nk then compareLoop cfg a b (nk + 1) cnt eh
    else if colCmp cfg a b nk ≠ 0 then Sum.inl (colCmp cfg a b nk)
    else compareLoop cfg a b (nk + 1) cnt (eh || colNull cfg a nk)

/-- `comparetup_orioledb_index` of src/tuple/sort.c: compare the cached
leading keys, run the abbreviated-key recheck when a converter is installed,
compare the remaining keys, and under `enforceUnique` raise the
uniqueness-violation error naming the index unless some compared column of
the left tuple was null. -/
def comparetup_orioledb_index (cfg : SortCfg) (a b : STuple) :
    Except String Int :=
  let c0 := applySortComparator a.datum1 a.isnull1 b.datum1 b.isnull1
    (cfg.sortKeys 0)
  if c0 ≠ 0 then Except.ok c0
  else
    let abbrevCmp : Option Int :=
      if (cfg.sortKeys 0).abbrevConverter then
        let c := applySortComparator (colDatum cfg a 0) (colNull cfg a 0)
          (colDatum cfg b 0) (colNull cfg b 0) (cfg.sortKeys 0)
        if c ≠ 0 then some c else none
      else none
    match abbrevCmp with
    | some c => Except.ok c
    | none =>
      match compareLoop cfg a b 1 (cfg.nKeys - 1) a.isnull1 with
      | Sum.inl c => Except.ok c
      | Sum.inr equalHasnull =>
        if cfg.enforceUnique && !equalHasnull then
          Except.error ("could not create unique index " ++ cfg.indexName)
        else Except.ok 0

/-- The per-field inputs `tuplesort_begin_orioledb_index` reads from the
index descriptor. -/
structure SortIndexDescr where
  unique : Bool
  nKeyFields : Nat
  nFields : Nat
  name : String
  ignore : Nat → Bool
  fieldAttno : Nat → Nat
  fieldNullsFirst : Nat → Bool
  fieldCmp : Nat → Nat → Nat → Int

/-- `tuplesort_begin_orioledb_index` of src/tuple/sort.c, reduced to the
configuration it installs: `nKeys` is `nKeyFields` for a unique index and
`nFields` otherwise, `enforceUnique` is `idx->unique`, and no
abbreviated-key converter is installed. -/
def tuplesort_begin_orioledb_index (idx : SortIndexDescr) : SortCfg :=
  { nKeys := if idx.unique then idx.nKeyFields else idx.nFields,
    sortKeys := fun i =>
      { ssup_attno := idx.fieldAttno i, nullsFirst := idx.fieldNullsFirst i,
        cmp := idx.fieldCmp i, abbrevConverter := false },
    ignoreColumn := idx.ignore,
    enforceUnique := idx.unique,
    indexName := idx.name }

end TupleSort

namespace TupleSort

/-- Does some non-ignored sort key in `[nk, nk + cnt)` read a null from the
left tuple? -/
def anyNullWindow (cfg : SortCfg) (a : STuple) (nk cnt : Nat) : Bool :=
  (List.range cnt).any (fun d =>
    !cfg.ignoreColumn (nk + d) && colNull cfg a (nk + d))

theorem anyNullWindow_eq_true_iff (cfg : SortCfg) (a : STuple) (nk cnt : Nat) :
    anyNullWindow cfg a nk cnt = true ↔
      ∃ j, nk ≤ j ∧ j < nk + cnt ∧ cfg.ignoreColumn j = false ∧
        colNull cfg a j = true := by
  unfold anyNullWindow
  rw [List.any_eq_true]
  constructor
  · rintro ⟨d, hd, hprop⟩
    have hd2 : d < cnt := List.mem_range.mp hd
    rw [Bool.and_eq_true, Bool.not_eq_true'] at hprop
    exact ⟨nk + d, by omega, by omega, hprop.1, hprop.2⟩
  · rintro ⟨j, h1, h2, h3, h4⟩
    refine ⟨j - nk, List.mem_range.mpr (by omega), ?_⟩
    rw [Bool.and_eq_true, Bool.not_eq_true']
    rw [show nk + (j - nk) = j from by omega]
    exact ⟨h3, h4⟩

/-- Characterization of the additional-keys loop's fall-through: it returns
`Sum.inr e` exactly when every non-ignored key of the window compares equal,
and then `e` records whether the incoming flag was set or some non-ignored
key of the window read a null from the left tuple. -/
theorem compareLoop_inr_iff (cfg : SortCfg) (a b : STuple) :
    ∀ (cnt nk : Nat) (eh e : Bool),
    compareLoop cfg a b nk cnt eh = Sum.inr e ↔
      ((∀ j, nk ≤ j → j < nk + cnt → cfg.ignoreColumn j = false →
        colCmp cfg a b j = 0) ∧
       (e = true ↔ (eh = true ∨ ∃ j, nk ≤ j ∧ j < nk + cnt ∧
         cfg.ignoreColumn j = false ∧ colNull cfg a j = true))) := by
  intro cnt
  induction cnt with
  | zero =>
    intro nk eh e
    have hex : ¬∃ j, nk ≤ j ∧ j < nk + 0 ∧ cfg.ignoreColumn j = false ∧
        colNull cfg a j = true := by
      rintro ⟨j, h1, h2, -⟩
      omega
    constructor
    · intro h
      have he : e = eh := (Sum.inr.inj h).symm
      subst he
      exact ⟨fun j h1 h2 _ => by omega, by
        rw [or_iff_left hex]⟩
    · rintro ⟨-, hiff⟩
      rw [or_iff_left hex] at hiff
      have he : e = eh := by
        cases e <;> cases eh <;> simp_all
      rw [show compareLoop cfg a b nk 0 eh = Sum.inr eh from rfl, he]
  | succ cnt ih =>
    intro nk eh e
    rw [show compareLoop cfg a b nk (cnt + 1) eh =
      (if cfg.ignoreColumn nk = true then compareLoop cfg a b (nk + 1) cnt eh
       else if colCmp cfg a b nk ≠ 0 then Sum.inl (colCmp cfg a b nk)
       else compareLoop cfg a b (nk + 1) cnt (eh || colNull cfg a nk))
      from rfl]
    by_cases hig : cfg.ignoreColumn nk = true
    · rw [if_pos hig, ih (nk + 1) eh e]
      constructor
      · rintro ⟨hcmp, hiff⟩
        refine ⟨?_, ?_⟩
        · intro j h1 h2 hj
          rcases Nat.eq_or_lt_of_le h1 with rfl | hlt
          · rw [hig] at hj
            exact absurd hj (by decide)
          · exact hcmp j hlt (by omega) hj
        · rw [hiff]
          constructor
          · rintro (h | ⟨j, h1, h2, h3, h4⟩)
            · exact Or.inl h
            · exact Or.inr ⟨j, by omega, by omega, h3, h4⟩
          · rintro (h | ⟨j, h1, h2, h3, h4⟩)
            · exact Or.inl h
            · refine Or.inr ⟨j, ?_, by omega, h3, h4⟩
              rcases Nat.eq_or_lt_of_le h1 with rfl | hlt
              · rw [hig] at h3
                exact absurd h3 (by decide)
              · omega
      · rintro ⟨hcmp, hiff⟩
        refine ⟨?_, ?_⟩
        · intro j h1 h2 hj
          exact hcmp j (by omega) (by omega) hj
        · rw [hiff]
          constructor
          · rintro (h | ⟨j, h1, h2, h3, h4⟩)
            · exact Or.inl h
            · refine Or.inr ⟨j, ?_, by omega, h3, h4⟩
              rcases Nat.eq_or_lt_of_le h1 with rfl | hlt
              · rw [hig] at h3
                exact absurd h3 (by decide)
              · omega
          · rintro (h | ⟨j, h1, h2, h3, h4⟩)
            · exact Or.inl h
            · exact Or.inr ⟨j, by omega, by omega, h3, h4⟩
    · rw [if_neg hig]
      have hig' : cfg.ignoreColumn nk = false := Bool.eq_false_iff.mpr hig
      by_cases hc : colCmp cfg a b nk ≠ 0
      · rw [if_pos hc]
        constructor
        · intro h
          exact absurd h (by simp)
        · rintro ⟨hcmp, -⟩
          exact absurd (hcmp nk (le_refl _) (by omega) hig') hc
      · rw [if_neg hc]
        have hc0 : colCmp cfg a b nk = 0 := not_not.mp hc
        rw [ih (nk + 1) (eh || colNull cfg a nk) e]
        constructor
        · rintro ⟨hcmp, hiff⟩
          refine ⟨?_, ?_⟩
          · intro j h1 h2 hj
            rcases Nat.eq_or_lt_of_le h1 with rfl | hlt
            · exact hc0
            · exact hcmp j hlt (by omega) hj
          · rw [hiff]
            constructor
            · rintro (h | ⟨j, h1, h2, h3, h4⟩)
              · rcases (by simpa using h : eh = true ∨ colNull cfg a nk = true)
                  with h' | h'
                · exact Or.inl h'
                · exact Or.inr ⟨nk, le_refl _, by omega, hig', h'⟩
              · exact Or.inr ⟨j, by omega, by omega, h3, h4⟩
            · rintro (h | ⟨j, h1, h2, h3, h4⟩)
              · exact Or.inl (by simp [h])
              · rcases Nat.eq_or_lt_of_le h1 with rfl | hlt
                · exact Or.inl (by simp [h4])
                · exact Or.inr ⟨j, by omega, by omega, h3, h4⟩
        · rintro ⟨hcmp, hiff⟩
          refine ⟨?_, ?_⟩
          · intro j h1 h2 hj
            exact hcmp j (by omega) (by omega) hj
          · rw [hiff]
            constructor
            · rintro (h | ⟨j, h1, h2, h3, h4⟩)
              · exact Or.inl (by simp [h])
              · rcases Nat.eq_or_lt_of_le h1 with rfl | hlt
                · exact Or.inl (by simp [h4])
                · exact Or.inr ⟨j, by omega, by omega, h3, h4⟩
            · rintro (h | ⟨j, h1, h2, h3, h4⟩)
              · rcases (by simpa using h : eh = true ∨ colNull cfg a nk = true)
                  with h' | h'
                · exact Or.inl h'
                · exact Or.inr ⟨nk, le_refl _, by omega, hig', h'⟩
              · exact Or.inr ⟨j, by omega, by omega, h3, h4⟩

end TupleSort

namespace TupleSort

/-- An index-build sort over a 2-key-column unique index. -/
def idxX : SortIndexDescr :=
  { unique := true, nKeyFields := 2, nFields := 2, name := "t_ix",
    ignore := fun _ => false, fieldAttno := fun i => i + 1,
    fieldNullsFirst := fun _ => false,
    fieldCmp := fun _ x y => (x : Int) - (y : Int) }

/-- Left tuple of the counterexample: leading key 5 (non-null), second key
column null. -/
def tupA : STuple :=
  { datum1 := 5, isnull1 := false, attrs := fun _ => (0, true) }

/-- Right tuple of the counterexample: identical reads. -/
def tupB : STuple :=
  { datum1 := 5, isnull1 := false, attrs := fun _ => (0, true) }

/--
C8, counterexample: a unique 2-key index comparing two tuples with EQUAL
NON-NULL leading keys and a null in the SECOND key column on both sides.
The claim ("no null was seen on the leading key" is the only suppression)
predicts the uniqueness-violation error; the comparator accumulates
`equal_hasnull` from EVERY compared column, so it returns 0 without
raising.
-/
theorem c8_nonleading_null_counterexample :
    comparetup_orioledb_index (tuplesort_begin_orioledb_index idxX) tupA tupB =
      Except.ok 0 ∧
    tupA.isnull1 = false ∧
    (tuplesort_begin_orioledb_index idxX).enforceUnique = true ∧
    applySortComparator tupA.datum1 tupA.isnull1 tupB.datum1 tupB.isnull1
      ((tuplesort_begin_orioledb_index idxX).sortKeys 0) = 0 ∧
    colCmp (tuplesort_begin_orioledb_index idxX) tupA tupB 1 = 0 := by
  refine ⟨?_, rfl, rfl, ?_, rfl⟩
  · rfl
  · show (5 : Int) - 5 = 0
    decide

/-- C8: amended characterization — under `tuplesort_begin_orioledb_index`
of a unique index, the comparator raises exactly when the leading keys and
every non-ignored further key column compare equal AND no null was read on
the leading key NOR on any compared further key column (a null on any
compared column suppresses the error, not only on the leading key); any
raised error names the index. -/
theorem c8_unique_error_amended (idx : SortIndexDescr) (a b : STuple) :
    ((∃ e, comparetup_orioledb_index (tuplesort_begin_orioledb_index idx) a b =
        Except.error e) ↔
      (idx.unique = true ∧
       applySortComparator a.datum1 a.isnull1 b.datum1 b.isnull1
         ((tuplesort_begin_orioledb_index idx).sortKeys 0) = 0 ∧
       (∀ j, 1 ≤ j → j < (tuplesort_begin_orioledb_index idx).nKeys →
         (tuplesort_begin_orioledb_index idx).ignoreColumn j = false →
         colCmp (tuplesort_begin_orioledb_index idx) a b j = 0) ∧
       a.isnull1 = false ∧
       (∀ j, 1 ≤ j → j < (tuplesort_begin_orioledb_index idx).nKeys →
         (tuplesort_begin_orioledb_index idx).ignoreColumn j = false →
         colNull (tuplesort_begin_orioledb_index idx) a j = false))) ∧
    (∀ e, comparetup_orioledb_index (tuplesort_begin_orioledb_index idx) a b =
        Except.error e →
      e = "could not create unique index " ++ idx.name) := by
  set cfg := tuplesort_begin_orioledb_index idx with hcfg
  have habb : (cfg.sortKeys 0).abbrevConverter = false := by
    rw [hcfg]
    rfl
  have henf : cfg.enforceUnique = idx.unique := by
    rw [hcfg]
    rfl
  unfold comparetup_orioledb_index
  set c0 := applySortComparator a.datum1 a.isnull1 b.datum1 b.isnull1
    (cfg.sortKeys 0) with hc0def
  by_cases hc0 : c0 ≠ 0
  · rw [if_pos hc0]
    refine ⟨⟨?_, ?_⟩, ?_⟩
    · rintro ⟨e, he⟩
      exact Except.noConfusion he
    · rintro ⟨-, h2, -⟩
      exact absurd h2 hc0
    · intro e he
      exact Except.noConfusion he
  · rw [if_neg hc0]
    have hc0' : c0 = 0 := not_not.mp hc0
    rw [habb]
    rw [if_neg (show ¬(false = true) from by decide)]
    dsimp only
    cases hL : compareLoop cfg a b 1 (cfg.nKeys - 1) a.isnull1 with
    | inl c =>
      dsimp only
      refine ⟨⟨?_, ?_⟩, ?_⟩
      · rintro ⟨e, he⟩
        exact Except.noConfusion he
      · rintro ⟨hu, -, hcmp, hnl, hnn⟩
        have hinr := (compareLoop_inr_iff cfg a b (cfg.nKeys - 1) 1 a.isnull1
          (a.isnull1 || anyNullWindow cfg a 1 (cfg.nKeys - 1))).mpr
          ⟨fun j h1 h2 hj => hcmp j h1 (by omega) hj, by
            simp [anyNullWindow_eq_true_iff]⟩
        rw [hL] at hinr
        exact Sum.noConfusion hinr
      · intro e he
        exact Except.noConfusion he
    | inr eh =>
      dsimp only
      obtain ⟨hcmp, hiff⟩ :=
        (compareLoop_inr_iff cfg a b (cfg.nKeys - 1) 1 a.isnull1 eh).mp hL
      by_cases hu : (cfg.enforceUnique && !eh) = true
      · rw [if_pos hu]
        have hu1 : cfg.enforceUnique = true := by
          cases h2 : cfg.enforceUnique
          · rw [h2] at hu
            simp at hu
          · rfl
        have heh : eh = false := by
          cases h2 : eh
          · rfl
          · rw [h2] at hu
            simp at hu
        refine ⟨⟨?_, ?_⟩, ?_⟩
        · intro hex
          refine ⟨henf.symm.trans hu1, hc0', ?_, ?_, ?_⟩
          · intro j h1 h2 hj
            exact hcmp j h1 (by omega) hj
          · cases han : a.isnull1
            · rfl
            · exfalso
              have := hiff.mpr (Or.inl han)
              rw [heh] at this
              exact Bool.false_ne_true this
          · intro j h1 h2 hj
            cases hn : colNull cfg a j
            · rfl
            · exfalso
              have := hiff.mpr (Or.inr ⟨j, h1, by omega, hj, hn⟩)
              rw [heh] at this
              exact Bool.false_ne_true this
        · intro hrhs
          exact ⟨"could not create unique index " ++ cfg.indexName, rfl⟩
        · intro e he
          have hmsg := Except.error.inj he
          rw [← hmsg, hcfg]
          rfl
      · rw [if_neg hu]
        refine ⟨⟨?_, ?_⟩, ?_⟩
        · rintro ⟨e, he⟩
          exact Except.noConfusion he
        · rintro ⟨hu1, -, -, hnl, hnn⟩
          exfalso
          have heh : eh = false := by
            cases heh2 : eh
            · rfl
            · exfalso
              rcases hiff.mp heh2 with h | ⟨j, h1, h2, h3, h4⟩
              · rw [hnl] at h
                exact Bool.false_ne_true h
              · have := hnn j h1 (by omega) h3
                rw [this] at h4
                exact Bool.false_ne_true h4
          apply hu
          rw [henf, hu1, heh]
          rfl
        · intro e he
          exact Except.noConfusion he

end TupleSort

namespace Build

/-- `ORIOLEDB_MAX_DEPTH`, the builder's stack depth bound (used as fuel for
the upward recursion `put_item_to_stack → put_downlink_to_stack`). -/
def ORIOLEDB_MAX_DEPTH : Nat := 32

/-- The page-write and page-split events of a bulk build:
`wrote level leaf` is one `perform_page_io_build` call on a stack page of
the given level, `split level ratio` is one `btree_page_split_location`
call with the target fill fraction actually passed. -/
inductive BuildEvent where
  | wrote (level : Nat) (leaf : Bool)
  | split (level : Nat) (ratio : ℚ)
deriving DecidableEq

/-- The tree-descriptor inputs of the builder: block size and fillfactor
feed the free-space gate of `put_item_to_stack`; `fits` abstracts
`page_locator_fits_item`, `splitLoc` abstracts `btree_page_split_location`
(items, target fill fraction ↦ left-side item count); `dlsize` is the size
of a parent downlink item (`BTreeNonLeafTuphdr` plus key). -/
structure BuildDesc where
  blcksz : Nat
  fillfactor : Nat
  fits : List Nat → Nat → Bool
  splitLoc : List Nat → ℚ → Nat
  dlsize : Nat

/-- The builder state: per-level page images (lists of item sizes), the
current root level, the `leafPagesNum` meta-page counter, and the event
log. -/
structure BuildState where
  stack : Nat → List Nat
  rootLevel : Nat
  leafPagesNum : Nat
  events : List BuildEvent

def updateStack (st : Nat → List Nat) (l : Nat) (v : List Nat) :
    Nat → List Nat :=
  fun l2 => if l2 = l then v else st l2

/-- The `if (level == *root_level) { ...; *root_level = level + 1; }` root
growth of the split path. -/
def bumpRoot (level : Nat) (st : BuildState) : BuildState :=
  if level = st.rootLevel then { st with rootLevel := level + 1 } else st

/--
`put_item_to_stack` of src/btree/build.c: when the page keeps at least
`BLCKSZ * (100 - fillfactor) / 100` free space after the item and the item
fits, insert in place; otherwise split (the split-location oracle is called
with the literal target fill fraction `0.9`), write the left page to disk
(counting it in `leafPagesNum` when it is a leaf), keep the right page on
the stack, and push the left page's downlink to the parent level.
-/
def put_item_to_stack (desc : BuildDesc) :
    Nat → Nat → Nat → BuildState → BuildState
  | 0, _, _, st => st
  | fuel + 1, level, size, st =>
    let img := st.stack level
    let fitAsIs :=
      if desc.blcksz * (100 - desc.fillfactor) / 100 + size ≤
          desc.blcksz - img.sum then
        desc.fits img size
      else false
    if fitAsIs then
      { st with stack := updateStack st.stack level (img ++ [size]) }
    else
      let items := img ++ [size]
      let leftCount := desc.splitLoc items ((9 : ℚ) / 10)
      let st1 := { st with events := st.events ++ [BuildEvent.split level ((9 : ℚ) / 10)] }
      let st2 := bumpRoot level st1
      let st3 := { st2 with stack := updateStack st2.stack level (items.drop leftCount), leafPagesNum := if level = 0 then st2.leafPagesNum + 1 else st2.leafPagesNum, events := st2.events ++ [BuildEvent.wrote level (decide (level = 0))] }
      put_item_to_stack desc fuel (level + 1) desc.dlsize st3

/-- `put_tuple_to_stack` of src/btree/build.c (always level 0). -/
def put_tuple_to_stack (desc : BuildDesc) (size : Nat) (st : BuildState) :
    BuildState :=
  put_item_to_stack desc ORIOLEDB_MAX_DEPTH 0 size st

/-- `btree_build_state_start`: empty stack pages, root level 0,
`leafPagesNum = 0`. -/
def btree_build_state_start : BuildState :=
  { stack := fun _ => [], rootLevel := 0, leafPagesNum := 0, events := [] }

/-- `btree_build_state_add_tuple`. -/
def btree_build_state_add_tuple (desc : BuildDesc) (st : BuildState)
    (size : Nat) : BuildState :=
  put_tuple_to_stack desc size st

/-- The `for (i = 0; i < saved_root_level; i++)` flush loop of
`btree_build_state_finish`: write each stack level and push its downlink
one level up. -/
def finishLoop (desc : BuildDesc) : Nat → Nat → BuildState → BuildState
  | _, 0, st => st
  | i, cnt + 1, st =>
    let st1 := { st with events := st.events ++ [BuildEvent.wrote i (decide (i = 0))], leafPagesNum := if i = 0 then st.leafPagesNum + 1 else st.leafPagesNum }
    let st2 := put_item_to_stack desc ORIOLEDB_MAX_DEPTH (i + 1) desc.dlsize st1
    finishLoop desc (i + 1) cnt st2

/-- The `CheckpointFileHeader` fields relevant here. -/
structure CheckpointFileHeader where
  leafPagesNum : Nat

/-- `btree_build_state_finish` of src/btree/build.c: flush levels
`0 .. root_level - 1`, then write the (possibly grown) root page —
counting it as a leaf page when the root is at level 0 — and record the
counter in the checkpoint file header. -/
def btree_build_state_finish (desc : BuildDesc) (st : BuildState) :
    BuildState × CheckpointFileHeader :=
  let st1 := finishLoop desc 0 st.rootLevel st
  let st2 := { st1 with events := st1.events ++ [BuildEvent.wrote st1.rootLevel (decide (st1.rootLevel = 0))], leafPagesNum := if st1.rootLevel = 0 then st1.leafPagesNum + 1 else st1.leafPagesNum }
  (st2, { leafPagesNum := st2.leafPagesNum })

/-- `btree_write_index_data` of src/btree/build.c: feed the sorted tuples
to the stack and finish. -/
def btree_write_index_data (desc : BuildDesc) (tuples : List Nat) :
    BuildState × CheckpointFileHeader :=
  btree_build_state_finish desc
    (tuples.foldl (fun st sz => btree_build_state_add_tuple desc st sz)
      btree_build_state_start)

/-- Is this event a write of a level-0 page? -/
def isLeafWrite : BuildEvent → Bool
  | .wrote 0 _ => true
  | _ => false

/-- How many level-0 pages were written. -/
def leafWrites (evs : List BuildEvent) : Nat :=
  (evs.filter isLeafWrite).length

/-- All split events carry the target fill fraction 9/10. -/
def splitsNinety (evs : List BuildEvent) : Prop :=
  ∀ l r, BuildEvent.split l r ∈ evs → r = (9 : ℚ) / 10

end Build

namespace Build

theorem bumpRoot_leafPagesNum (level : Nat) (st : BuildState) :
    (bumpRoot level st).leafPagesNum = st.leafPagesNum := by
  unfold bumpRoot
  split <;> rfl

theorem bumpRoot_events (level : Nat) (st : BuildState) :
    (bumpRoot level st).events = st.events := by
  unfold bumpRoot
  split <;> rfl

theorem leafWrites_append (xs ys : List BuildEvent) :
    leafWrites (xs ++ ys) = leafWrites xs + leafWrites ys := by
  simp [leafWrites, List.filter_append]

theorem leafWrites_wrote (level : Nat) (b : Bool) :
    leafWrites [BuildEvent.wrote level b] = if level = 0 then 1 else 0 := by
  cases level <;> simp [leafWrites, isLeafWrite, List.filter]

theorem leafWrites_split (level : Nat) (r : ℚ) :
    leafWrites [BuildEvent.split level r] = 0 := by
  simp [leafWrites, isLeafWrite, List.filter]

theorem splitsNinety_append (xs ys : List BuildEvent) :
    splitsNinety (xs ++ ys) ↔ splitsNinety xs ∧ splitsNinety ys := by
  unfold splitsNinety
  constructor
  · intro h
    exact ⟨fun l r hm => h l r (List.mem_append_left _ hm),
      fun l r hm => h l r (List.mem_append_right _ hm)⟩
  · rintro ⟨h1, h2⟩ l r hm
    rcases List.mem_append.mp hm with hm' | hm'
    · exact h1 l r hm'
    · exact h2 l r hm'

theorem splitsNinety_wrote (level : Nat) (b : Bool) :
    splitsNinety [BuildEvent.wrote level b] := by
  intro l r hm
  rcases List.mem_singleton.mp hm with h
  exact BuildEvent.noConfusion h

theorem splitsNinety_split (level : Nat) :
    splitsNinety [BuildEvent.split level ((9 : ℚ) / 10)] := by
  intro l r hm
  have h := List.mem_singleton.mp hm
  cases h
  rfl

end Build

namespace Build

/-- `put_item_to_stack` keeps `leafPagesNum` equal to the number of level-0
pages written so far: it increments the counter exactly at its level-0
`perform_page_io_build` call. -/
theorem put_item_leafInv (desc : BuildDesc) :
    ∀ (fuel level size : Nat) (st : BuildState),
    st.leafPagesNum = leafWrites st.events →
    (put_item_to_stack desc fuel level size st).leafPagesNum =
      leafWrites (put_item_to_stack desc fuel level size st).events := by
  intro fuel
  induction fuel with
  | zero =>
    intro level size st h
    exact h
  | succ fuel ih =>
    intro level size st h
    unfold put_item_to_stack
    dsimp only
    by_cases hfit : (if desc.blcksz * (100 - desc.fillfactor) / 100 + size ≤
        desc.blcksz - (st.stack level).sum then
        desc.fits (st.stack level) size else false) = true
    · rw [if_pos hfit]
      exact h
    · rw [if_neg hfit]
      apply ih
      dsimp only
      rw [bumpRoot_leafPagesNum, bumpRoot_events]
      dsimp only
      rw [leafWrites_append, leafWrites_append, leafWrites_wrote,
        leafWrites_split]
      by_cases hl : level = 0
      · rw [if_pos hl, if_pos hl]
        omega
      · rw [if_neg hl, if_neg hl]
        omega

/-- `put_item_to_stack` only ever calls the split-location oracle with the
literal target fill fraction 9/10. -/
theorem put_item_splitsInv (desc : BuildDesc) :
    ∀ (fuel level size : Nat) (st : BuildState),
    splitsNinety st.events →
    splitsNinety (put_item_to_stack desc fuel level size st).events := by
  intro fuel
  induction fuel with
  | zero =>
    intro level size st h
    exact h
  | succ fuel ih =>
    intro level size st h
    unfold put_item_to_stack
    dsimp only
    by_cases hfit : (if desc.blcksz * (100 - desc.fillfactor) / 100 + size ≤
        desc.blcksz - (st.stack level).sum then
        desc.fits (st.stack level) size else false) = true
    · rw [if_pos hfit]
      exact h
    · rw [if_neg hfit]
      apply ih
      dsimp only
      rw [bumpRoot_events]
      dsimp only
      rw [splitsNinety_append, splitsNinety_append]
      exact ⟨⟨h, splitsNinety_split level⟩, splitsNinety_wrote level _⟩

theorem finishLoop_leafInv (desc : BuildDesc) :
    ∀ (cnt i : Nat) (st : BuildState),
    st.leafPagesNum = leafWrites st.events →
    (finishLoop desc i cnt st).leafPagesNum =
      leafWrites (finishLoop desc i cnt st).events := by
  intro cnt
  induction cnt with
  | zero =>
    intro i st h
    exact h
  | succ cnt ih =>
    intro i st h
    unfold finishLoop
    dsimp only
    apply ih
    apply put_item_leafInv
    dsimp only
    rw [leafWrites_append, leafWrites_wrote]
    by_cases hl : i = 0
    · rw [if_pos hl, if_pos hl]
      omega
    · rw [if_neg hl, if_neg hl]
      omega

theorem finishLoop_splitsInv (desc : BuildDesc) :
    ∀ (cnt i : Nat) (st : BuildState),
    splitsNinety st.events →
    splitsNinety (finishLoop desc i cnt st).events := by
  intro cnt
  induction cnt with
  | zero =>
    intro i st h
    exact h
  | succ cnt ih =>
    intro i st h
    unfold finishLoop
    dsimp only
    apply ih
    apply put_item_splitsInv
    dsimp only
    rw [splitsNinety_append]
    exact ⟨h, splitsNinety_wrote i _⟩

theorem foldl_leafInv (desc : BuildDesc) (tuples : List Nat) :
    ∀ (st : BuildState),
    st.leafPagesNum = leafWrites st.events →
    (tuples.foldl (fun st2 sz => btree_build_state_add_tuple desc st2 sz)
      st).leafPagesNum =
      leafWrites ((tuples.foldl
        (fun st2 sz => btree_build_state_add_tuple desc st2 sz) st).events) := by
  induction tuples with
  | nil =>
    intro st h
    exact h
  | cons sz rest ih =>
    intro st h
    rw [List.foldl_cons]
    exact ih _ (put_item_leafInv desc _ _ _ _ h)

theorem foldl_splitsInv (desc : BuildDesc) (tuples : List Nat) :
    ∀ (st : BuildState),
    splitsNinety st.events →
    splitsNinety ((tuples.foldl
      (fun st2 sz => btree_build_state_add_tuple desc st2 sz) st).events) := by
  induction tuples with
  | nil =>
    intro st h
    exact h
  | cons sz rest ih =>
    intro st h
    rw [List.foldl_cons]
    exact ih _ (put_item_splitsInv desc _ _ _ _ h)

/--
C7: throughout a bulk build (`btree_build_state_start`, any sequence of
`btree_build_state_add_tuple`, `btree_build_state_finish`), the
`leafPagesNum` recorded in the `CheckpointFileHeader` equals the number of
level-0 (leaf) pages written through `perform_page_io_build`: one per leaf
page written on the split path, one per leaf page flushed during finish,
and one for the root when the root is itself a leaf.
-/
theorem c7_leafPagesNum_counts_leaf_writes (desc : BuildDesc)
    (tuples : List Nat) :
    (btree_write_index_data desc tuples).2.leafPagesNum =
      leafWrites (btree_write_index_data desc tuples).1.events := by
  unfold btree_write_index_data btree_build_state_finish
  dsimp only
  have hfold := foldl_leafInv desc tuples btree_build_state_start rfl
  have hfin := finishLoop_leafInv desc
    (tuples.foldl (fun st2 sz => btree_build_state_add_tuple desc st2 sz)
      btree_build_state_start).rootLevel 0
    (tuples.foldl (fun st2 sz => btree_build_state_add_tuple desc st2 sz)
      btree_build_state_start) hfold
  rw [leafWrites_append, leafWrites_wrote]
  by_cases hl : (finishLoop desc 0
      (tuples.foldl (fun st2 sz => btree_build_state_add_tuple desc st2 sz)
        btree_build_state_start).rootLevel
      (tuples.foldl (fun st2 sz => btree_build_state_add_tuple desc st2 sz)
        btree_build_state_start)).rootLevel = 0
  · rw [if_pos hl, if_pos hl]
    omega
  · rw [if_neg hl, if_neg hl]
    omega

/-- The split-location target fill fraction is the literal 9/10 in every
split of every build, whatever the configured fillfactor. -/
theorem build_splits_ninety (desc : BuildDesc) (tuples : List Nat) :
    splitsNinety (btree_write_index_data desc tuples).1.events := by
  unfold btree_write_index_data btree_build_state_finish
  dsimp only
  rw [splitsNinety_append]
  exact ⟨finishLoop_splitsInv desc
    (tuples.foldl (fun st2 sz => btree_build_state_add_tuple desc st2 sz)
      btree_build_state_start).rootLevel 0
    (tuples.foldl (fun st2 sz => btree_build_state_add_tuple desc st2 sz)
      btree_build_state_start)
    (foldl_splitsInv desc tuples btree_build_state_start
      (fun l r hm => absurd hm (List.not_mem_nil _))),
    splitsNinety_wrote _ _⟩

end Build

namespace Build

/-- C6: amended — for every page split performed by the bulk builder, the
target fill fraction passed to the split-location oracle
(`btree_page_split_location`) is the LITERAL 9/10, for every index
configuration; the configured `desc->fillfactor` (which does gate the
free-space test) is never passed to the oracle. -/
theorem c6_split_ratio_amended (desc : BuildDesc) (tuples : List Nat)
    (l : Nat) (r : ℚ)
    (hmem : BuildEvent.split l r ∈
      (btree_write_index_data desc tuples).1.events) :
    r = (9 : ℚ) / 10 :=
  build_splits_ninety desc tuples l r hmem

/-- A 100-byte-page tree configured with fillfactor 50. -/
def desc6 : BuildDesc :=
  { blcksz := 100, fillfactor := 50,
    fits := fun img sz => decide (img.sum + sz ≤ 100),
    splitLoc := fun _ _ => 1, dlsize := 10 }

/--
C6, counterexample: building with fillfactor 50 and two 30-byte tuples
splits the leaf page, and the split-location oracle is invoked with target
fill fraction 9/10, not the configured 50/100.
-/
theorem c6_fillfactor_ignored_counterexample :
    BuildEvent.split 0 ((9 : ℚ) / 10) ∈
      (btree_write_index_data desc6 [30, 30]).1.events ∧
    desc6.fillfactor = 50 ∧ ((9 : ℚ) / 10) ≠ (50 : ℚ) / 100 := by
  refine ⟨?_, rfl, by norm_num⟩
  rw [show (btree_write_index_data desc6 [30, 30]).1.events =
    [BuildEvent.split 0 ((9 : ℚ) / 10), BuildEvent.wrote 0 true,
     BuildEvent.wrote 0 true, BuildEvent.wrote 1 false] from rfl]
  exact List.mem_cons_self _ _

/-- C6, witness: the amended theorem applied to the concrete fillfactor-50
run, at its split event. -/
theorem c6_split_ratio_amended_witness :
    (BuildEvent.split 0 ((9 : ℚ) / 10) ∈
      (btree_write_index_data desc6 [30, 30]).1.events) ∧
    ((9 : ℚ) / 10) = (9 : ℚ) / 10 :=
  ⟨by
    rw [show (btree_write_index_data desc6 [30, 30]).1.events =
      [BuildEvent.split 0 ((9 : ℚ) / 10), BuildEvent.wrote 0 true,
       BuildEvent.wrote 0 true, BuildEvent.wrote 1 false] from rfl]
    exact List.mem_cons_self _ _,
   c6_split_ratio_amended desc6 [30, 30] 0 ((9 : ℚ) / 10) (by
    rw [show (btree_write_index_data desc6 [30, 30]).1.events =
      [BuildEvent.split 0 ((9 : ℚ) / 10), BuildEvent.wrote 0 true,
       BuildEvent.wrote 0 true, BuildEvent.wrote 1 false] from rfl]
    exact List.mem_cons_self _ _)⟩

end Build

namespace Fastpath

/-- `FASTPATH_FIND_DOWNLINK_FLAG_MINUS_INF` (include/btree/fastpath.h). -/
def FLAG_MINUS_INF : Nat := 1

/-- `FASTPATH_FIND_DOWNLINK_FLAG_PLUS_INF` (include/btree/fastpath.h). -/
def FLAG_PLUS_INF : Nat := 2

/-- The `for (i = 0; lower < upper && i < meta->numKeys; i++)` key loop of
`fastpath_find_downlink`: per key, either run that key's stride search on
the current `[lower, upper)` window, or collapse the window for a
minus/plus-infinity key.  Keys are modelled at the INT4 instantiation
(`arr j i` = column `i` of item `j`); `cnt` counts the keys left. -/
def findKeysLoop (flags : Nat → Nat) (values : Nat → Int)
    (arr : Nat → Nat → Int) : Nat → Nat → Nat → Nat → Nat × Nat
  | _, 0, lower, upper => (lower, upper)
  | i, cnt + 1, lower, upper =>
    if lower < upper then
      if flags i = 0 then
        let r := int4_array_search (fun j => arr j i) (values i) lower upper
        findKeysLoop flags values arr (i + 1) cnt r.1 r.2
      else if flags i &&& FLAG_MINUS_INF ≠ 0 then
        findKeysLoop flags values arr (i + 1) cnt lower lower
      else
        findKeysLoop flags values arr (i + 1) cnt upper upper
    else (lower, upper)

/-- One page chunk as consulted by `fastpath_find_downlink`:
`chunkKeysFixed`, the layout re-validation (`chunkSize == ...`, abstracted
to `sizeOk`), the raw item count (`chunkItemsCount`; chunk 0 additionally
stores the minus-infinity downlink, so its searchable count is one less),
and the separator-key columns. -/
structure ChunkModel where
  keysFixed : Bool
  sizeOk : Bool
  itemsCount : Nat
  keys : Nat → Nat → Int

/-- The non-leaf page as consulted by `fastpath_find_downlink`; `stateOk`
models the two `O_PAGE_STATE_READ_IS_BLOCKED`/change-count re-checks. -/
structure PageModel where
  chunksCount : Nat
  chunks : Nat → ChunkModel
  stateOk : Bool

/-- The search inputs of `FastpathFindDownlinkMeta` used by the descent. -/
structure MetaModel where
  numKeys : Nat
  flags : Nat → Nat
  values : Nat → Int
  inclusive : Bool

/-- Which downlink the fast path selected: the minus-infinity downlink
stored before chunk 0's item array, or the item at a position of a chunk. -/
inductive DownlinkLoc where
  | minusInf
  | item (chunkIdx itemIdx : Nat)
deriving DecidableEq

/-- `OBTreeFastPathFindResult`. -/
inductive FindResult where
  | ok (loc : DownlinkLoc)
  | slowpath
  | retry
deriving DecidableEq

/--
`fastpath_find_downlink` of src/btree/fastpath.c from the point where the
chunk index is known (the chunk comes from `fastpath_find_chunk` or the
meta cache): validate the chunk, run the key loop on `[0, count)`, select
`itemIndex = inclusive ? lower : upper`, and resolve the downlink — in
chunk 0, `itemIndex == 0` selects the minus-infinity downlink and otherwise
the item at `itemIndex - 1`; in a later chunk, `itemIndex == 0` wraps to
the last item of the previous chunk after re-validating it.
-/
def fastpath_find_downlink (pg : PageModel) (meta : MetaModel)
    (chunkIndex : Nat) : FindResult :=
  let ch := pg.chunks chunkIndex
  if ch.keysFixed = false then FindResult.slowpath
  else
    let count := if chunkIndex = 0 then ch.itemsCount - 1 else ch.itemsCount
    if ch.sizeOk = false then FindResult.slowpath
    else
      let r := findKeysLoop meta.flags meta.values ch.keys 0 meta.numKeys
        0 count
      let itemIndex := if meta.inclusive then r.1 else r.2
      if pg.stateOk = false then FindResult.retry
      else
        let sel : FindResult :=
          if chunkIndex = 0 then
            if itemIndex = 0 then FindResult.ok DownlinkLoc.minusInf
            else FindResult.ok (DownlinkLoc.item 0 (itemIndex - 1))
          else if 0 < itemIndex then
            FindResult.ok (DownlinkLoc.item chunkIndex (itemIndex - 1))
          else
            let pi2 := chunkIndex - 1
            let pch := pg.chunks pi2
            if pch.keysFixed = false then FindResult.slowpath
            else if pch.sizeOk = false then FindResult.slowpath
            else
              let picount := if pi2 = 0 then pch.itemsCount - 1
                else pch.itemsCount
              if pi2 = 0 ∧ pch.itemsCount - 1 = 0 then
                FindResult.ok DownlinkLoc.minusInf
              else FindResult.ok (DownlinkLoc.item pi2 (picount - 1))
        match sel with
        | FindResult.ok l =>
          if pg.stateOk = false then FindResult.retry else FindResult.ok l
        | other => other

/-- A single-chunk page over the INT4 separator keys `[10, 20, 30, 40]`
(chunk 0 additionally stores the minus-infinity downlink, hence
`itemsCount = 5`). -/
def pgFour : PageModel :=
  { chunksCount := 1,
    chunks := fun _ =>
      { keysFixed := true, sizeOk := true, itemsCount := 5,
        keys := fun j _ => 10 * ((j : Int) + 1) },
    stateOk := true }

/-- An exclusive single-key search for 20. -/
def metaTwenty : MetaModel :=
  { numKeys := 1, flags := fun _ => 0, values := fun _ => 20,
    inclusive := false }

end Fastpath

namespace Fastpath

/-- An exclusive single-key search for 10 (the first separator key). -/
def metaTen : MetaModel :=
  { numKeys := 1, flags := fun _ => 0, values := fun _ => 10,
    inclusive := false }

/--
C4, counterexample: on the chunk-0 item array with keys `[10, 20, 30, 40]`,
the exclusive search for 20 narrows `[lower, upper)` to `[1, 2)` and the
code selects `itemIndex = upper = 2`, i.e. the item at index 1 (key 20,
the rightmost key `<=` 20) — not the claim's `lower - 1 = 0` (key 10).
And the exclusive search for 10 gives `lower = 0` yet the code does NOT
take the minus-infinity/wrap path (it selects `upper - 1 = 0`), so the wrap
condition is `upper == 0`, not the claim's `lower == 0`.
-/
theorem c4_exclusive_lower_counterexample :
    fastpath_find_downlink pgFour metaTwenty 0 =
      FindResult.ok (DownlinkLoc.item 0 1) ∧
    findKeysLoop metaTwenty.flags metaTwenty.values (pgFour.chunks 0).keys
      0 1 0 4 = (1, 2) ∧
    DownlinkLoc.item 0 1 ≠ DownlinkLoc.item 0 (1 - 1) ∧
    fastpath_find_downlink pgFour metaTen 0 =
      FindResult.ok (DownlinkLoc.item 0 0) ∧
    (findKeysLoop metaTen.flags metaTen.values (pgFour.chunks 0).keys
      0 1 0 4).1 = 0 := by
  refine ⟨by decide, by decide, by decide, by decide, by decide⟩

/-- The searchable item count of a chunk (`count` in
`fastpath_find_downlink`): chunk 0 additionally stores the minus-infinity
downlink before its item array, so its searchable count is one less than
`chunkItemsCount`. -/
def chunkCount (pg : PageModel) (c : Nat) : Nat :=
  if c = 0 then (pg.chunks c).itemsCount - 1 else (pg.chunks c).itemsCount

/-- The final `upper` bound computed by the key loop of
`fastpath_find_downlink` over chunk `c`'s item array. -/
def searchUpper (pg : PageModel) (meta : MetaModel) (c : Nat) : Nat :=
  (findKeysLoop meta.flags meta.values (pg.chunks c).keys 0 meta.numKeys 0
    (chunkCount pg c)).2

/-- C4: amended — for an EXCLUSIVE (`inclusive == false`) search over a
validated chunk, `fastpath_find_downlink` selects `itemIndex = upper`, the
final upper bound of the key loop (not `lower`): with `upper > 0` it
returns the item at `upper - 1` of the current chunk; with `upper == 0` in
chunk 0 it returns the minus-infinity downlink stored before the item
array; with `upper == 0` in a chunk `> 0` it wraps into the previous
chunk's tail — returning Slowpath if that chunk's fixedness or layout
re-validation fails, and otherwise its last item (or the minus-infinity
downlink when the previous chunk is chunk 0 holding no further items).
For a sorted single-key search, `upper - 1` is exactly the index of the
RIGHTMOST key `<=` the search key, and `upper == 0` means every key
exceeds the search key (at an exact key match this differs from the
claim's `lower - 1`). -/
theorem c4_exclusive_selection_amended (pg : PageModel) (meta : MetaModel)
    (chunkIndex : Nat)
    (hincl : meta.inclusive = false)
    (hkf : (pg.chunks chunkIndex).keysFixed = true)
    (hsz : (pg.chunks chunkIndex).sizeOk = true)
    (hst : pg.stateOk = true) :
    (0 < searchUpper pg meta chunkIndex →
      fastpath_find_downlink pg meta chunkIndex =
        FindResult.ok (DownlinkLoc.item chunkIndex
          (searchUpper pg meta chunkIndex - 1))) ∧
    (searchUpper pg meta chunkIndex = 0 → chunkIndex = 0 →
      fastpath_find_downlink pg meta chunkIndex =
        FindResult.ok DownlinkLoc.minusInf) ∧
    (searchUpper pg meta chunkIndex = 0 → 0 < chunkIndex →
      ((pg.chunks (chunkIndex - 1)).keysFixed = false ∨
       (pg.chunks (chunkIndex - 1)).sizeOk = false) →
      fastpath_find_downlink pg meta chunkIndex = FindResult.slowpath) ∧
    (searchUpper pg meta chunkIndex = 0 → 0 < chunkIndex →
      (pg.chunks (chunkIndex - 1)).keysFixed = true →
      (pg.chunks (chunkIndex - 1)).sizeOk = true →
      fastpath_find_downlink pg meta chunkIndex =
        (if chunkIndex - 1 = 0 ∧
            (pg.chunks (chunkIndex - 1)).itemsCount - 1 = 0 then
          FindResult.ok DownlinkLoc.minusInf
        else
          FindResult.ok (DownlinkLoc.item (chunkIndex - 1)
            (chunkCount pg (chunkIndex - 1) - 1)))) ∧
    (meta.numKeys = 1 → meta.flags 0 = 0 →
      (∀ i j, i ≤ j → j < chunkCount pg chunkIndex →
        (pg.chunks chunkIndex).keys i 0 ≤ (pg.chunks chunkIndex).keys j 0) →
      ((∀ j, j < chunkCount pg chunkIndex →
          meta.values 0 < (pg.chunks chunkIndex).keys j 0) →
        searchUpper pg meta chunkIndex = 0) ∧
      (∀ j, j < chunkCount pg chunkIndex →
        (pg.chunks chunkIndex).keys j 0 ≤ meta.values 0 →
        (∀ i, j < i → i < chunkCount pg chunkIndex →
          meta.values 0 < (pg.chunks chunkIndex).keys i 0) →
        searchUpper pg meta chunkIndex = j + 1)) := by
  unfold fastpath_find_downlink
  dsimp only
  rw [hkf, if_neg (show ¬(true = false) from by decide)]
  rw [show (if chunkIndex = 0 then (pg.chunks chunkIndex).itemsCount - 1
      else (pg.chunks chunkIndex).itemsCount) = chunkCount pg chunkIndex
    from rfl]
  rw [hsz, if_neg (show ¬(true = false) from by decide)]
  rw [hst, if_neg (show ¬(true = false) from by decide)]
  rw [hincl, if_neg (show ¬(false = true) from by decide)]
  rw [show (findKeysLoop meta.flags meta.values (pg.chunks chunkIndex).keys
      0 meta.numKeys 0 (chunkCount pg chunkIndex)).2 =
      searchUpper pg meta chunkIndex from rfl]
  refine ⟨?_, ?_, ?_, ?_, ?_⟩
  · intro h
    by_cases hc : chunkIndex = 0
    · subst hc
      rw [if_pos rfl]
      rw [if_neg (show ¬(searchUpper pg meta 0 = 0) from by omega)]
      rfl
    · rw [if_neg hc, if_pos h]
      rfl
  · intro h hc
    subst hc
    rw [if_pos rfl, if_pos h]
    rfl
  · intro h hpos hbad
    rw [if_neg (show ¬(chunkIndex = 0) from by omega)]
    rw [if_neg (show ¬(0 < searchUpper pg meta chunkIndex) from by omega)]
    by_cases hk2 : (pg.chunks (chunkIndex - 1)).keysFixed = false
    · rw [if_pos hk2]
    · rcases hbad with hb | hb
      · exact absurd hb hk2
      · rw [if_neg hk2, if_pos hb]
  · intro h hpos hk2 hs2
    rw [if_neg (show ¬(chunkIndex = 0) from by omega)]
    rw [if_neg (show ¬(0 < searchUpper pg meta chunkIndex) from by omega)]
    rw [hk2, if_neg (show ¬(true = false) from by decide)]
    rw [hs2, if_neg (show ¬(true = false) from by decide)]
    by_cases hm : chunkIndex - 1 = 0 ∧
        (pg.chunks (chunkIndex - 1)).itemsCount - 1 = 0
    · rw [if_pos hm, if_pos hm]
      rfl
    · rw [if_neg hm, if_neg hm]
      rfl
  · intro hnk hflag hsort
    unfold searchUpper
    rw [hnk]
    by_cases hcnt : 0 < chunkCount pg chunkIndex
    · have hloop : findKeysLoop meta.flags meta.values
          (pg.chunks chunkIndex).keys 0 1 0 (chunkCount pg chunkIndex) =
          int4_array_search (fun j => (pg.chunks chunkIndex).keys j 0)
            (meta.values 0) 0 (chunkCount pg chunkIndex) := by
        unfold findKeysLoop
        rw [if_pos hcnt, if_pos hflag]
        rfl
      rw [hloop]
      have hspec : SearchResultSpec (fun j => (pg.chunks chunkIndex).keys j 0)
          (meta.values 0) 0 (chunkCount pg chunkIndex)
          (int4_array_search (fun j => (pg.chunks chunkIndex).keys j 0)
            (meta.values 0) 0 (chunkCount pg chunkIndex)) :=
        arraySearch_spec _ _ (by intro a b; simp) (by intro a b; simp)
          (fun j => (pg.chunks chunkIndex).keys j 0) (meta.values 0) 0
          (chunkCount pg chunkIndex) (by omega)
          (fun i j h1 h2 h3 => hsort i j h2 h3)
      obtain ⟨a1, a2, a3, a4, a5, a6, a7, a8⟩ := hspec
      constructor
      · intro hall
        by_contra h2
        have h0 : (pg.chunks chunkIndex).keys 0 0 ≤ meta.values 0 :=
          a6 0 (le_refl 0) (Nat.pos_of_ne_zero h2)
        have hv := hall 0 hcnt
        omega
      · intro j hj hle hmax
        have hj1 : j < (int4_array_search
            (fun j => (pg.chunks chunkIndex).keys j 0) (meta.values 0) 0
            (chunkCount pg chunkIndex)).2 := by
          by_contra hj1
          have h7 : meta.values 0 < (pg.chunks chunkIndex).keys j 0 :=
            a7 j (by omega) hj
          omega
        have hj2 : (int4_array_search
            (fun j => (pg.chunks chunkIndex).keys j 0) (meta.values 0) 0
            (chunkCount pg chunkIndex)).2 ≤ j + 1 := by
          by_contra hj2
          have h6 : (pg.chunks chunkIndex).keys (j + 1) 0 ≤ meta.values 0 :=
            a6 (j + 1) (by omega) (by omega)
          have hm := hmax (j + 1) (by omega) (by omega)
          omega
        omega
    · have hcnt0 : chunkCount pg chunkIndex = 0 := by omega
      rw [hcnt0]
      have hloop : findKeysLoop meta.flags meta.values
          (pg.chunks chunkIndex).keys 0 1 0 0 = (0, 0) := by
        unfold findKeysLoop
        rw [if_neg (show ¬((0 : Nat) < 0) from by omega)]
      rw [hloop]
      constructor
      · intro hall
        rfl
      · intro j hj
        exact absurd hj (by omega)

/-- A two-chunk page: chunk 0 stores the minus-infinity downlink plus the
separator keys `[10, 20]`, chunk 1 the keys `[30, 40]`. -/
def pgWrap : PageModel :=
  { chunksCount := 2,
    chunks := fun c =>
      if c = 0 then
        { keysFixed := true, sizeOk := true, itemsCount := 3,
          keys := fun j _ => 10 * ((j : Int) + 1) }
      else
        { keysFixed := true, sizeOk := true, itemsCount := 2,
          keys := fun j _ => 30 + 10 * (j : Int) },
    stateOk := true }

/-- An exclusive single-key search for 25. -/
def metaTwentyFive : MetaModel :=
  { numKeys := 1, flags := fun _ => 0, values := fun _ => 25,
    inclusive := false }

/-- C4, witness: the amended theorem applied twice concretely — the
exclusive search for 20 over chunk 0's keys `[10, 20, 30, 40]` computes
`upper = 2` and selects the item at index 1 (key 20, the rightmost key
`<= 20`); the exclusive search for 25 over chunk 1 of the two-chunk page
(keys `[30, 40]`) computes `upper = 0` and wraps to the last item of
chunk 0 (key 20). -/
theorem c4_exclusive_selection_amended_witness :
    (0 : Nat) < searchUpper pgFour metaTwenty 0 ∧
    searchUpper pgFour metaTwenty 0 = 2 ∧
    fastpath_find_downlink pgFour metaTwenty 0 =
      FindResult.ok (DownlinkLoc.item 0 (searchUpper pgFour metaTwenty 0 - 1)) ∧
    searchUpper pgWrap metaTwentyFive 1 = 0 ∧
    fastpath_find_downlink pgWrap metaTwentyFive 1 =
      FindResult.ok (DownlinkLoc.item 0 1) := by
  refine ⟨by decide, by decide, ?_, by decide, ?_⟩
  · exact (c4_exclusive_selection_amended pgFour metaTwenty 0
      rfl rfl rfl rfl).1 (by decide)
  · exact ((c4_exclusive_selection_amended pgWrap metaTwentyFive 1
      rfl (by decide) (by decide) rfl).2.2.2.1 (by decide) (by decide)
      (by decide) (by decide)).trans (by decide)

end Fastpath
